import Mathlib

/-!
# Montanas: commit / state verification

A shallow embedding of the Go packages of `polarysfundation/montanas`:

* `src/montanasprotocol/montana_commit.go`, `src/montanasprotocol/montana_state.go`
  (namespace `montanasprotocol`), the variant with `uint64` counters;
* `src/montanas/commit.go`, `src/montanas/state.go` (namespace `montanas`),
  the variant with `*big.Int` counters; its `verifyMerkleProof`,
  `decodeAddressArray`, `getMerkleTree` and `calculateTreeHeight` are, comments
  apart, the same text as those of `montana_state.go` and are embedded once,
  in namespace `montanasprotocol`;
* `src/moskovskiy/header.go` (namespace `moskovskiy`), the header sanity check.

Conventions of the embedding.

* A Go `byte` is `Fin 256`; a slice `[]byte` is a `List Byte`; a fixed array
  `[n]byte` is a list together with a proof that its length is `n`.
* A `uint64` is a `Nat` below `2^64`; a non-negative `*big.Int` is a `Nat`.
* A Go function returning `(T, error)` returns `Except String T`.
* A run-time abort (`panic`, index out of range) is `none` in an `Option`.
* The digest functions of the libraries (`crypto/sha256`, `x/crypto/sha3`,
  go-ethereum `crypto.Keccak256Hash`) and go-ethereum's `Address.String` are
  not part of the repository; they are the fields of the structure `Lib`,
  which every function that hashes takes as its first argument.
-/

/-! ## Go library: bytes, slices, `copy`, `encoding/binary`, `bytes` -/

namespace Go

/-- Go `byte`. -/
abbrev Byte := Fin 256

/-- Go fixed-size array `[n]byte`. -/
abbrev Bytes (n : Nat) := { l : List Byte // l.length = n }

/-- The zero value of `[n]byte`. -/
def Bytes.zero (n : Nat) : Bytes n := ⟨List.replicate n 0, List.length_replicate n 0⟩

/-- Conversion `byte(v)` of an unsigned integer: the low eight bits. -/
def toByte (v : Nat) : Byte := ⟨v % 256, Nat.mod_lt v (by decide)⟩

/-- Slice expression `b[lo:hi]` (the callers keep `lo ≤ hi ≤ len(b)`). -/
def slice (b : List Byte) (lo hi : Nat) : List Byte := (b.drop lo).take (hi - lo)

/-- Builtin `copy(dst, src)`: the contents of `dst` afterwards. The first
`min(len(dst), len(src))` bytes come from `src`, the rest of `dst` stays. -/
def copy (dst src : List Byte) : List Byte := src.take dst.length ++ dst.drop src.length

/-- Statement `copy(b[lo:hi], src)` on a buffer `b`: the contents of `b` afterwards. -/
def copyAt (b : List Byte) (lo hi : Nat) (src : List Byte) : List Byte :=
  b.take lo ++ copy (slice b lo hi) src ++ b.drop hi

/-- Statement `copy(a[:], src)` on a fixed array `a`. -/
def Bytes.copyFrom {n : Nat} (a : Bytes n) (src : List Byte) : Bytes n :=
  ⟨copy a.val src, by
    have h := a.property
    simp only [copy, List.length_append, List.length_take, List.length_drop]
    omega⟩

/-- Unsigned big-endian value of a byte string (`big.Int.SetBytes`). -/
def beNat (b : List Byte) : Nat := b.foldl (fun acc x => acc * 256 + x.val) 0

/-- Function `binary.BigEndian.Uint64(b)`: the first eight bytes, most significant first. -/
def BigEndian.Uint64 (b : List Byte) : Nat := beNat (b.take 8)

/-- The eight bytes `binary.BigEndian.PutUint64` stores for `v`. -/
def BigEndian.bytes64 (v : Nat) : List Byte :=
  [toByte (v >>> 56), toByte (v >>> 48), toByte (v >>> 40), toByte (v >>> 32),
   toByte (v >>> 24), toByte (v >>> 16), toByte (v >>> 8), toByte v]

/-- The eight bytes `binary.LittleEndian.PutUint64` stores for `v`. -/
def LittleEndian.bytes64 (v : Nat) : List Byte :=
  [toByte v, toByte (v >>> 8), toByte (v >>> 16), toByte (v >>> 24),
   toByte (v >>> 32), toByte (v >>> 40), toByte (v >>> 48), toByte (v >>> 56)]

/-- Statement `binary.BigEndian.PutUint64(b[lo:hi], v)` on a buffer `b`
(every caller has `hi - lo ≥ 8`): bytes `lo .. lo+8` receive `v`. -/
def BigEndian.PutUint64At (b : List Byte) (lo hi : Nat) (v : Nat) : List Byte :=
  copyAt b lo hi (BigEndian.bytes64 v)

/-- Statement `binary.LittleEndian.PutUint64(b[lo:hi], v)` on a buffer `b`. -/
def LittleEndian.PutUint64At (b : List Byte) (lo hi : Nat) (v : Nat) : List Byte :=
  copyAt b lo hi (LittleEndian.bytes64 v)

/-- Function `bytes.Compare(a, b)`: `-1`, `0` or `1` by lexicographic order. -/
def bytesCompare : List Byte → List Byte → Int
  | [], [] => 0
  | [], _ :: _ => -1
  | _ :: _, [] => 1
  | x :: xs, y :: ys => if x.val < y.val then -1 else if y.val < x.val then 1 else bytesCompare xs ys

/-- `[32]byte`, also go-ethereum `common.Hash`. -/
abbrev Hash := Bytes 32

/-- go-ethereum `common.Address`, a `[20]byte`. -/
abbrev Address := Bytes 20

/-- Library functions the repository calls but does not define. -/
structure Lib where
  /-- `sha256.Sum256` of `crypto/sha256`. -/
  sha256 : List Byte → Hash
  /-- `sha3.Sum256` of `golang.org/x/crypto/sha3`. -/
  sha3 : List Byte → Hash
  /-- `crypto.Keccak256Hash` of go-ethereum. -/
  keccak256 : List Byte → Hash
  /-- `[]byte(a.String())` for a `common.Address` `a`. -/
  addressString : Address → List Byte

/-- A `Lib` whose digests all return the zero hash: a stand-in under which any
two byte strings collide, used to run the code behind a digest comparison. -/
def constLib : Lib :=
  { sha256 := fun _ => Bytes.zero 32
    sha3 := fun _ => Bytes.zero 32
    keccak256 := fun _ => Bytes.zero 32
    addressString := fun a => a.val }

/-- A `Lib` whose `sha256` tells a 160-byte string from every other string: a
stand-in without a collision between a 160-byte and a 256-byte string. -/
def lengthLib : Lib :=
  { sha256 := fun l =>
      if l.length = 160 then Bytes.zero 32 else ⟨List.replicate 32 1, List.length_replicate 32 1⟩
    sha3 := fun _ => Bytes.zero 32
    keccak256 := fun _ => Bytes.zero 32
    addressString := fun a => a.val }

/-- A `Lib` whose three digests return three different constants (thirty-two
bytes `1`, `2` and `3`): a stand-in used to run the Merkle code on a concrete input. -/
def tagLib : Lib :=
  { sha256 := fun _ => ⟨List.replicate 32 1, List.length_replicate 32 1⟩
    sha3 := fun _ => ⟨List.replicate 32 2, List.length_replicate 32 2⟩
    keccak256 := fun _ => ⟨List.replicate 32 3, List.length_replicate 32 3⟩
    addressString := fun a => a.val }

/-- Slice expression `b[lo:hi]` with its run-time check, for a slice `b` whose
capacity is its length: `none` is the abort `slice bounds out of range`. -/
def sliceChecked (b : List Byte) (lo hi : Nat) : Option (List Byte) :=
  if lo ≤ hi ∧ hi ≤ b.length then some (slice b lo hi) else none

/-- The spec's reading of an integer field: the `n` bytes of `b` from offset
`off` as a big-endian number, byte `off + i` weighing `256^(n - 1 - i)`. -/
def specBigEndian (b : List Byte) (off n : Nat) : Nat :=
  ((List.range n).map fun i => (b.getD (off + i) 0).val * 256 ^ (n - 1 - i)).sum

/-- The spec's reading of a `u64` field: the eight bytes of `b` from offset
`off`, most significant first. -/
def specUint64 (b : List Byte) (off : Nat) : Nat :=
  (b.getD off 0).val * 2 ^ 56 + (b.getD (off + 1) 0).val * 2 ^ 48 +
  (b.getD (off + 2) 0).val * 2 ^ 40 + (b.getD (off + 3) 0).val * 2 ^ 32 +
  (b.getD (off + 4) 0).val * 2 ^ 24 + (b.getD (off + 5) 0).val * 2 ^ 16 +
  (b.getD (off + 6) 0).val * 2 ^ 8 + (b.getD (off + 7) 0).val

end Go

open Go

/-! ## Package `src/montanasprotocol` -/

namespace montanasprotocol

/-- `Commit` of `montana_commit.go`. -/
structure Commit where
  Height : Nat
  Index : Nat
  BlockHash : Hash
  Signature : Hash
  Validator : Address
deriving DecidableEq

/-- `State` of `montana_state.go`. -/
structure State where
  RoundId : Nat
  Height : Nat
  BlockHash : Hash
  ExtraData : Hash
  NewCommit : Hash
  LastCommit : Hash
  MerkleRoot : Hash
  CurrentValidator : Address
deriving DecidableEq

/-- `setCommit` of `montana_commit.go`: the digest and the 160-byte buffer. -/
def setCommit (L : Lib) (cm : Commit) : Hash × List Byte :=
  let _height := cm.Height
  let _index := cm.Index
  let _blockHash := cm.BlockHash
  let _signature := cm.Signature
  let _validatorBytes := cm.Validator.val
  let b : List Byte := List.replicate (5 * 32) 0
  let b := BigEndian.PutUint64At b 0 8 _height
  let b := BigEndian.PutUint64At b 8 16 _index
  let b := copyAt b 16 48 _blockHash.val
  let b := copyAt b 48 80 _signature.val
  let b := copyAt b 80 100 (_validatorBytes.drop 12)
  let output := L.sha256 b
  (output, b)

/-- `decodeCommit` of `montana_commit.go`. -/
def decodeCommit (b : List Byte) : Except String Commit :=
  if b.length ≠ 256 then
    .error "Los datos de entrada deben tener una longitud de 256 bytes"
  else
    .ok {
      Height := BigEndian.Uint64 (slice b 0 8)
      Index := BigEndian.Uint64 (slice b 8 16)
      BlockHash := (Bytes.zero 32).copyFrom (slice b 16 48)
      Signature := (Bytes.zero 32).copyFrom (slice b 48 80)
      Validator := (Bytes.zero 20).copyFrom (slice b 80 100) }

/-- `decodeState` of `montana_state.go`. -/
def decodeState (ss : List Byte) : Except String State :=
  if ss.length ≠ 256 then
    .error "Los datos de entrada deben tener una longitud de 256 bytes"
  else
    .ok {
      RoundId := BigEndian.Uint64 (slice ss 0 8)
      Height := BigEndian.Uint64 (slice ss 8 16)
      BlockHash := (Bytes.zero 32).copyFrom (slice ss 16 48)
      ExtraData := (Bytes.zero 32).copyFrom (slice ss 48 80)
      NewCommit := (Bytes.zero 32).copyFrom (slice ss 80 112)
      LastCommit := (Bytes.zero 32).copyFrom (slice ss 112 144)
      MerkleRoot := (Bytes.zero 32).copyFrom (slice ss 144 176)
      CurrentValidator := (Bytes.zero 20).copyFrom (slice ss 176 192) }

/-- `verifyCommit` of `montana_commit.go`. -/
def verifyCommit (L : Lib) (b : List Byte) (commit : Hash) (ss : List Byte) : Bool :=
  match decodeCommit b with
  | .error _ => false
  | .ok cm =>
    match decodeState ss with
    | .error _ => false
    | .ok s =>
      let _commit := (setCommit L cm).1
      let _b := (setCommit L cm).2
      if _commit ≠ commit then false
      else
        let hash1 := L.sha256 _b
        let hash2 := L.sha256 b
        if ¬ (hash1.val = hash2.val) then false
        else if _commit ≠ s.NewCommit ∧
            s.CurrentValidator ≠ cm.Validator ∧ s.Height ≠ cm.Height then false
        else true

/-- `verifyMerkleProof` of `montana_state.go`: one pass of the loop body. -/
def verifyMerkleProof.step (L : Lib) (computedHash siblingHash : Hash) : Hash :=
  if computedHash = siblingHash then computedHash
  else
    let combinedData :=
      if bytesCompare computedHash.val siblingHash.val < 0 then
        computedHash.val ++ siblingHash.val
      else
        siblingHash.val ++ computedHash.val
    L.sha256 combinedData

/-- `verifyMerkleProof` of `montana_state.go`. -/
def verifyMerkleProof (L : Lib) (merkleTree : List Hash) (merkleRoot leaf : Hash) : Bool :=
  let computedHash := merkleTree.foldl (verifyMerkleProof.step L) leaf
  decide (computedHash.val = merkleRoot.val)

/-- `decodeAddressArray` of `montana_state.go`. -/
def decodeAddressArray (a : List Byte) : List Address :=
  let len := a.length / 32
  (List.range len).map fun i => (Bytes.zero 20).copyFrom (slice a (i * 32) ((i + 1) * 32))

/-- `calculateTreeHeight` of `montana_state.go`: the `for temp.Cmp(one) > 0` loop,
run for at most `fuel` passes. -/
def calculateTreeHeight.loop : Nat → Nat → Nat → Nat
  | 0, _, height => height
  | fuel + 1, temp, height =>
    if temp > 1 then calculateTreeHeight.loop fuel ((temp + 1) / 2) (height + 1) else height

/-- `calculateTreeHeight` of `montana_state.go`; `validatorCount` passes of the
loop are enough for it to finish. -/
def calculateTreeHeight (validatorCount : Nat) : Nat :=
  calculateTreeHeight.loop validatorCount validatorCount 0

/-- The variables `getMerkleTree` updates in its loops. -/
structure TreeVars where
  tree : List Hash
  currentIndex : Nat
  validatorIndex : Nat

/-- The loop invariant of `getMerkleTree`: the walk stands at position `2^k - 1`,
`treeHeight - k` validators are consumed and the tree has `2^treeHeight` slots. -/
def TreeInv (treeHeight : Nat) (st : TreeVars) : Prop :=
  ∃ k, k ≤ treeHeight ∧ st.currentIndex = 2 ^ k - 1 ∧ st.tree.length = 2 ^ treeHeight ∧
    st.validatorIndex + k = treeHeight

/-- `getMerkleTree`: the inner loop `for i := 0; i < levelSize; i++`, with the
number of passes left. `none` is an index out of range. -/
def getMerkleTree.inner (L : Lib) (coinbase : Address) (validators : List Address) :
    Nat → TreeVars → Option TreeVars
  | 0, st => some st
  | k + 1, st =>
    if st.currentIndex = 0 then some st
    else
      match validators[st.validatorIndex]? with
      | none => none
      | some validator =>
        let validatorHash := L.sha3 (coinbase.val ++ validator.val)
        let siblingIndex :=
          if st.currentIndex % 2 = 0 then st.currentIndex + 1 else st.currentIndex - 1
        match st.tree[siblingIndex]? with
        | none => none
        | some sibling =>
          let combinedData := sibling.val ++ validatorHash.val
          if st.currentIndex < st.tree.length then
            getMerkleTree.inner L coinbase validators k
              { tree := st.tree.set st.currentIndex (L.sha256 combinedData)
                currentIndex := (st.currentIndex - 1) / 2
                validatorIndex := st.validatorIndex + 1 }
          else none

/-- `getMerkleTree`: the outer loop `for level := 0; level < treeHeight; level++`,
with the number of levels left and the current level. -/
def getMerkleTree.outer (L : Lib) (coinbase : Address) (validators : List Address) :
    Nat → Nat → TreeVars → Option TreeVars
  | 0, _, st => some st
  | r + 1, level, st =>
    let levelSize := 1 <<< level
    match getMerkleTree.inner L coinbase validators levelSize st with
    | none => none
    | some st1 => getMerkleTree.outer L coinbase validators r (level + 1) st1

/-- `getMerkleTree` of `montana_state.go`. `none` is the `panic` on an empty
validator list, or an index out of range. -/
def getMerkleTree (L : Lib) (coinbase : Address) (merkleRoot : Hash)
    (validators : List Address) : Option (List Hash) :=
  if validators.length = 0 then none
  else
    let treeHeight := calculateTreeHeight validators.length
    let treeSize := (1 <<< treeHeight) - 1
    let tree := (List.replicate (treeSize + 1) (Bytes.zero 32)).set 0 merkleRoot
    let currentIndex := treeSize
    let validatorIndex := 0
    (getMerkleTree.outer L coinbase validators treeHeight 0
      { tree := tree, currentIndex := currentIndex, validatorIndex := validatorIndex }).map
      fun st => st.tree

/-- The node the tree holds at position `2^j - 1` for `1 ≤ j ≤ treeHeight`: the
`sha256` of the sibling (the root for `j = 1`, the zero hash otherwise)
followed by the `sha3` of the coinbase and validator `treeHeight - j`. -/
def spineNode (L : Lib) (coinbase : Address) (merkleRoot : Hash) (validators : List Address)
    (treeHeight j : Nat) : Hash :=
  L.sha256 ((if j = 1 then merkleRoot else Bytes.zero 32).val ++
    (L.sha3 (coinbase.val ++ (validators.getD (treeHeight - j) (Bytes.zero 20)).val)).val)

/-- The contents of the tree while `getMerkleTree` walks: the walk stands at
position `2^k - 1`, position 0 holds the root, the positions `2^j - 1` with
`k < j ≤ treeHeight` hold their `spineNode`, every other position is zero. -/
def SpineInv (L : Lib) (coinbase : Address) (merkleRoot : Hash) (validators : List Address)
    (treeHeight k : Nat) (st : TreeVars) : Prop :=
  k ≤ treeHeight ∧ st.currentIndex = 2 ^ k - 1 ∧ st.tree.length = 2 ^ treeHeight ∧
  st.validatorIndex + k = treeHeight ∧
  st.tree[0]? = some merkleRoot ∧
  (∀ j, k < j → j ≤ treeHeight →
    st.tree[2 ^ j - 1]? = some (spineNode L coinbase merkleRoot validators treeHeight j)) ∧
  (∀ i, 0 < i → i < 2 ^ treeHeight → (∀ j, k < j → j ≤ treeHeight → i ≠ 2 ^ j - 1) →
    st.tree[i]? = some (Bytes.zero 32))

/-- `verifyHeader` of `montana_state.go`: the loop `for i, addr := range v`
that assigns `index`, with the position `i` and the value of `index` so far. -/
def verifyHeader.indexLoop (coinbase : Address) : List Address → Nat → Nat → Nat
  | [], _, index => index
  | addr :: rest, i, index =>
    verifyHeader.indexLoop coinbase rest (i + 1) (if addr = coinbase then i else index)

/-- `verifyHeader` of `montana_state.go` (the spec's `verifyState`). `none` is an abort. -/
def verifyHeader (L : Lib) (ss cm validators : List Byte) : Option Bool :=
  match decodeState ss with
  | .error _ => some false
  | .ok s =>
    let commit_ := s.NewCommit
    match decodeCommit cm with
    | .error _ => some false
    | .ok c =>
      let v := decodeAddressArray validators
      let _coinbase := s.CurrentValidator
      let merkleroot_ := s.MerkleRoot
      let leaf := L.keccak256 (L.addressString _coinbase)
      match getMerkleTree L _coinbase merkleroot_ v with
      | none => none
      | some tree =>
        let index := verifyHeader.indexLoop _coinbase v 0 0
        let checkProof := verifyMerkleProof L tree merkleroot_ leaf
        some (decide (c.Index = index) &&
          checkProof &&
          verifyCommit L cm commit_ ss &&
          decide (s.Height = c.Height) &&
          decide (s.BlockHash = c.BlockHash) && decide (s.LastCommit ≠ commit_))

end montanasprotocol

/-! ## Package `src/montanas` -/

namespace montanas

/-- `Commit` of `commit.go`; `Height` and `Index` are `*big.Int`,
`Signature` is a slice. -/
structure Commit where
  Height : Nat
  Index : Nat
  BlockHash : Hash
  Signature : List Byte
  Validator : Address
deriving DecidableEq

/-- `State` of `state.go`; `RoundId` and `Height` are `*big.Int`. -/
structure State where
  RoundId : Nat
  Height : Nat
  BlockHash : Hash
  ExtraData : Hash
  NewCommit : Hash
  LastCommit : Hash
  MerkleRoot : Hash
  CurrentValidator : Address
deriving DecidableEq

/-- Method `(*big.Int).Uint64` on a non-negative value: the low 64 bits. -/
def bigUint64 (x : Nat) : Nat := x % 2 ^ 64

/-- `Commit.encodeCommit` of `commit.go`: the digest and the 160-byte buffer. -/
def Commit.encodeCommit (L : Lib) (cm : Commit) : Hash × List Byte :=
  let b : List Byte := List.replicate (5 * 32) 0
  let b := BigEndian.PutUint64At b 0 32 (bigUint64 cm.Height)
  let b := BigEndian.PutUint64At b 32 64 (bigUint64 cm.Index)
  let b := copyAt b 64 96 cm.BlockHash.val
  let b := copyAt b 96 128 cm.Signature
  let b := copyAt b 128 160 (cm.Validator.val.drop 12)
  let output := L.sha256 b
  (output, b)

/-- `decodeCommit` of `commit.go`. The field `Signature` of the fresh `Commit`
is a nil slice, so `copy(cm.Signature[:], ...)` copies nothing into it. -/
def decodeCommit (b : List Byte) : Except String Commit :=
  if b.length ≠ 256 then
    .error "input data must be 256 bytes"
  else
    .ok {
      Height := beNat (slice b 0 32)
      Index := beNat (slice b 32 64)
      BlockHash := (Bytes.zero 32).copyFrom (slice b 64 96)
      Signature := copy [] (slice b 96 128)
      Validator := (Bytes.zero 20).copyFrom (slice b 128 160) }

/-- `State.encodeState` of `state.go`. -/
def State.encodeState (ss : State) : List Byte :=
  let _roundId := ss.RoundId
  let _height := ss.Height
  let _blockHash := ss.BlockHash
  let _extraData := ss.ExtraData
  let _newCommit := ss.NewCommit
  let _lastCommit := ss.LastCommit
  let _merkleRoot := ss.MerkleRoot
  let _currentValidator := ss.CurrentValidator
  let b : List Byte := List.replicate (8 * 32) 0
  let b := LittleEndian.PutUint64At b 0 8 (bigUint64 _roundId)
  let b := LittleEndian.PutUint64At b 8 16 (bigUint64 _height)
  let b := copyAt b 16 48 _blockHash.val
  let b := copyAt b 48 80 _extraData.val
  let b := copyAt b 80 112 _newCommit.val
  let b := copyAt b 112 144 _lastCommit.val
  let b := copyAt b 144 176 _merkleRoot.val
  let b := copyAt b 176 196 _currentValidator.val
  b

/-- `decodeState` of `state.go`. -/
def decodeState (ss : List Byte) : Except String State :=
  if ss.length ≠ 256 then
    .error "Los datos de entrada deben tener una longitud de 256 bytes"
  else
    .ok {
      RoundId := beNat (slice ss 0 32)
      Height := beNat (slice ss 32 64)
      BlockHash := (Bytes.zero 32).copyFrom (slice ss 16 48)
      ExtraData := (Bytes.zero 32).copyFrom (slice ss 48 80)
      NewCommit := (Bytes.zero 32).copyFrom (slice ss 80 112)
      LastCommit := (Bytes.zero 32).copyFrom (slice ss 112 144)
      MerkleRoot := (Bytes.zero 32).copyFrom (slice ss 144 176)
      CurrentValidator := (Bytes.zero 20).copyFrom (slice ss 176 192) }

end montanas

/-! ## Package `src/moskovskiy` -/

namespace moskovskiy

/-- `Header` of `header.go`; the four counters are `*big.Int`. -/
structure Header where
  Height : Nat
  BlockHash : Hash
  Coinbase : Address
  Difficulty : Nat
  ExtraData : Hash
  GasLimit : Nat
  ParentHash : Hash
  Timestamp : Nat
deriving DecidableEq

/-- `HeaderStorer` of `header.go`. -/
structure HeaderStorer where
  Header : List Byte

/-- `HeaderStorer.decodeHeader` of `header.go`. `none` is a slice expression
out of range. -/
def HeaderStorer.decodeHeader (hs : HeaderStorer) : Option moskovskiy.Header := do
  let b0 ← sliceChecked hs.Header 0 32
  let b1 ← sliceChecked hs.Header 32 64
  let b2 ← sliceChecked hs.Header 64 96
  let b3 ← sliceChecked hs.Header 96 128
  let b4 ← sliceChecked hs.Header 128 160
  let b5 ← sliceChecked hs.Header 160 196
  let b6 ← sliceChecked hs.Header 196 228
  let b7 ← sliceChecked hs.Header 228 260
  some
    { Height := beNat b0
      BlockHash := (Bytes.zero 32).copyFrom b1
      Coinbase := (Bytes.zero 20).copyFrom b2
      Difficulty := beNat b3
      ExtraData := (Bytes.zero 32).copyFrom b4
      GasLimit := beNat b5
      ParentHash := (Bytes.zero 32).copyFrom b6
      Timestamp := beNat b7 }

/-- `verifyHeader` of `header.go`: the header and the error (`none` for `nil`);
an outer `none` is an abort. -/
def verifyHeader (input : List Byte) : Option (Header × Option String) :=
  let zeroAddress : Address := Bytes.zero 20
  let zeroHash : Hash := Bytes.zero 32
  let hs : HeaderStorer := { Header := input }
  match hs.decodeHeader with
  | none => none
  | some header =>
    if header.Coinbase ≠ zeroAddress ∧ header.BlockHash ≠ zeroHash then
      some (header, none)
    else if header.Height = 0 then
      if header.ParentHash = zeroHash then
        some (header, none)
      else
        some (header, some "invalid genesis block")
    else
      some (header, some "invalid header")

end moskovskiy

/-! ## Inputs of the witnesses and counterexamples -/

namespace Sample

/-- A 256-byte record of zero bytes. -/
def zeroRecord : List Byte := List.replicate 256 0

/-- The 256-byte record whose byte at offset `i` is `i`. -/
def countingRecord : List Byte := (List.range 256).map toByte

/-- The state whose fields are all zero. -/
def zeroState : montanasprotocol.State :=
  { RoundId := 0, Height := 0, BlockHash := Bytes.zero 32, ExtraData := Bytes.zero 32,
    NewCommit := Bytes.zero 32, LastCommit := Bytes.zero 32, MerkleRoot := Bytes.zero 32,
    CurrentValidator := Bytes.zero 20 }

/-- A state record: height 1, newCommit thirty-two bytes `1`, every other field zero. -/
def mismatchState : List Byte :=
  List.replicate 15 0 ++ [1] ++ List.replicate 64 0 ++ List.replicate 32 1 ++
    List.replicate 144 0

/-- A state record: lastCommit thirty-two bytes `1`, sixteen bytes `9` at
offsets 176 to 192 (the validator), every other field zero. -/
def nineState : List Byte :=
  List.replicate 112 0 ++ List.replicate 32 1 ++ List.replicate 32 0 ++
    List.replicate 16 9 ++ List.replicate 64 0

/-- A state record that is zero except for the byte at offset 192. -/
def tailState : List Byte := List.replicate 192 0 ++ [1] ++ List.replicate 63 0

/-- The address whose bytes are `1, 2, ..., 20`. -/
def countingAddress : Address := ⟨(List.range 20).map fun i => toByte (i + 1), by decide⟩

/-- A commit of package `montanasprotocol` with validator `countingAddress`. -/
def commit : montanasprotocol.Commit :=
  { Height := 1, Index := 2, BlockHash := Bytes.zero 32, Signature := Bytes.zero 32,
    Validator := countingAddress }

/-- The validator `A` of the acceptance scenario. -/
def validatorA : Address := ⟨List.replicate 20 10, by decide⟩

/-- The validator `B` of the acceptance scenario. -/
def validatorB : Address := ⟨List.replicate 20 11, by decide⟩

/-- The validator `C` of the acceptance scenario. -/
def validatorC : Address := ⟨List.replicate 20 12, by decide⟩

/-- The validator `D` of the acceptance scenario. -/
def validatorD : Address := ⟨List.replicate 20 13, by decide⟩

/-- The validator-set blob of the acceptance scenario: one 32-byte chunk for
each of `A`, `B`, `C`, `D`, the identifier first, then twelve zero bytes. -/
def scenarioValidators : List Byte :=
  validatorA.val ++ List.replicate 12 0 ++ validatorB.val ++ List.replicate 12 0 ++
    validatorC.val ++ List.replicate 12 0 ++ validatorD.val ++ List.replicate 12 0

/-- The commit of the acceptance scenario: index 2, validator `C`, height 7. -/
def scenarioCommit : montanasprotocol.Commit :=
  { Height := 7, Index := 2, BlockHash := ⟨List.replicate 32 5, by decide⟩,
    Signature := ⟨List.replicate 32 6, by decide⟩, Validator := validatorC }

/-- A state of package `montanas`: roundId 1, height 2, validator `countingAddress`. -/
def bigState : montanas.State :=
  { RoundId := 1, Height := 2, BlockHash := Bytes.zero 32, ExtraData := Bytes.zero 32,
    NewCommit := Bytes.zero 32, LastCommit := Bytes.zero 32, MerkleRoot := Bytes.zero 32,
    CurrentValidator := countingAddress }

/-- A 260-byte header record whose byte at offset `i` is `i mod 256`. -/
def headerRecord : List Byte := (List.range 260).map toByte

/-- The four validators of the acceptance scenario, in order. -/
def fourValidators : List Address := [validatorA, validatorB, validatorC, validatorD]

end Sample

/-! ## Lemmas on the library functions -/

open montanasprotocol

set_option maxRecDepth 100000

theorem Go.copy_length (dst src : List Byte) : (copy dst src).length = dst.length := by
  simp only [copy, List.length_append, List.length_take, List.length_drop]
  omega

theorem Go.slice_length (b : List Byte) (lo hi : Nat) (h : hi ≤ b.length) :
    (slice b lo hi).length = hi - lo := by
  simp only [slice, List.length_take, List.length_drop]
  omega

theorem Go.copyAt_length {n : Nat} (b : List Byte) (lo hi : Nat) (src : List Byte)
    (hb : b.length = n) (h1 : lo ≤ hi) (h2 : hi ≤ n) : (copyAt b lo hi src).length = n := by
  subst hb
  simp only [copyAt, List.length_append, List.length_take, List.length_drop, copy_length,
    slice_length b lo hi h2]
  omega

theorem Go.slice_getElem_opt (b : List Byte) (lo hi i : Nat) :
    (slice b lo hi)[i]? = if i < hi - lo then b[lo + i]? else none := by
  simp only [slice, List.getElem?_take, List.getElem?_drop]

theorem Go.slice_congr (b d : List Byte) (lo hi : Nat)
    (h : ∀ i, i < hi → d[i]? = b[i]?) : slice d lo hi = slice b lo hi := by
  apply List.ext_getElem?
  intro i
  rw [slice_getElem_opt, slice_getElem_opt]
  split
  · exact h _ (by omega)
  · rfl

theorem Go.copyFrom_zero_val (n : Nat) (src : List Byte) (h : src.length = n) :
    ((Bytes.zero n).copyFrom src).val = src := by
  show copy (Bytes.zero n).val src = src
  have hz : (Bytes.zero n).val.length = n := (Bytes.zero n).property
  unfold copy
  rw [hz, List.take_of_length_le (by omega), List.drop_eq_nil_of_le (by omega),
    List.append_nil]

theorem Go.copyFrom_slice_getElem_opt (n : Nat) (b : List Byte) (lo hi i : Nat)
    (h : hi ≤ b.length) (hn : hi - lo = n) (hi2 : i < n) :
    ((Bytes.zero n).copyFrom (slice b lo hi)).val[i]? = b[lo + i]? := by
  rw [copyFrom_zero_val n _ (by rw [slice_length b lo hi h]; exact hn), slice_getElem_opt,
    if_pos (by omega)]

theorem Go.beNat_eight (x0 x1 x2 x3 x4 x5 x6 x7 : Byte) :
    beNat [x0, x1, x2, x3, x4, x5, x6, x7] =
      x0.val * 2 ^ 56 + x1.val * 2 ^ 48 + x2.val * 2 ^ 40 + x3.val * 2 ^ 32 +
      x4.val * 2 ^ 24 + x5.val * 2 ^ 16 + x6.val * 2 ^ 8 + x7.val := by
  simp only [beNat, List.foldl]
  omega

theorem Go.slice_eight (b : List Byte) (lo : Nat) (h : lo + 8 ≤ b.length) :
    slice b lo (lo + 8) = [b.getD lo 0, b.getD (lo + 1) 0, b.getD (lo + 2) 0,
      b.getD (lo + 3) 0, b.getD (lo + 4) 0, b.getD (lo + 5) 0, b.getD (lo + 6) 0,
      b.getD (lo + 7) 0] := by
  apply List.ext_getElem?
  intro i
  rw [slice_getElem_opt]
  have key : ∀ j, j < 8 → b[lo + j]? = some (b.getD (lo + j) 0) := by
    intro j hj
    rw [List.getD_eq_getElem?_getD, List.getElem?_eq_getElem (by omega)]
    rfl
  rcases i with _ | _ | _ | _ | _ | _ | _ | _ | i
  all_goals first
    | (rw [if_pos (by omega), key _ (by omega)]; rfl)
    | (rw [if_neg (by omega)]; simp)

theorem Go.Uint64_slice (b : List Byte) (lo : Nat) (h : lo + 8 ≤ b.length) :
    BigEndian.Uint64 (slice b lo (lo + 8)) = specUint64 b lo := by
  rw [slice_eight b lo h]
  simp only [BigEndian.Uint64, List.take, beNat_eight, specUint64]

theorem Go.copyFrom_zero_short (n : Nat) (src : List Byte) (h : src.length ≤ n) :
    ((Bytes.zero n).copyFrom src).val = src ++ List.replicate (n - src.length) 0 := by
  show copy (Bytes.zero n).val src = _
  have hz : (Bytes.zero n).val.length = n := (Bytes.zero n).property
  unfold copy
  rw [hz, List.take_of_length_le h]
  show src ++ List.drop src.length (List.replicate n 0) = _
  rw [List.drop_replicate]

theorem Go.copyAt_zeros (p r src : List Byte) (k lo hi : Nat) (hlo : lo = p.length)
    (hhi : hi = lo + k) (h : src.length ≤ k) :
    copyAt (p ++ (List.replicate k 0 ++ r)) lo hi src =
      p ++ (src ++ (List.replicate (k - src.length) 0 ++ r)) := by
  subst hlo hhi
  have h1 : List.take p.length (p ++ (List.replicate k 0 ++ r)) = p := List.take_left' rfl
  have h2 : List.drop p.length (p ++ (List.replicate k (0 : Byte) ++ r)) =
      List.replicate k 0 ++ r := List.drop_left' rfl
  have h3 : slice (p ++ (List.replicate k 0 ++ r)) p.length (p.length + k) =
      List.replicate k 0 := by
    unfold slice
    rw [h2, Nat.add_sub_cancel_left]
    exact List.take_left' (List.length_replicate k 0)
  have h4 : List.drop (p.length + k) (p ++ (List.replicate k (0 : Byte) ++ r)) = r := by
    rw [← List.drop_drop, h2]
    exact List.drop_left' (List.length_replicate k 0)
  unfold copyAt
  rw [h1, h3, h4]
  unfold copy
  rw [List.length_replicate, List.take_of_length_le h, List.drop_replicate]
  simp only [List.append_assoc]

theorem Go.copyAt_zeros_add (p src : List Byte) (k m lo hi n : Nat) (hlo : lo = p.length)
    (hhi : hi = lo + k) (h : src.length = k - n) (hn : n ≤ k) :
    copyAt (p ++ List.replicate (k + m) 0) lo hi src =
      (p ++ src) ++ List.replicate (n + m) 0 := by
  have hk : k - src.length = n := by omega
  rw [List.replicate_add, copyAt_zeros p _ src k lo hi hlo hhi (by omega), hk,
    List.replicate_add]
  simp only [List.append_assoc]

/-! ## Lemmas on package `montanasprotocol` -/

theorem montanasprotocol.setCommit_length (L : Lib) (cm : Commit) :
    (setCommit L cm).2.length = 160 := by
  simp only [setCommit, BigEndian.PutUint64At]
  exact copyAt_length _ _ _ _ (copyAt_length _ _ _ _ (copyAt_length _ _ _ _
    (copyAt_length _ _ _ _ (copyAt_length _ _ _ _ (List.length_replicate _ _)
      (by decide) (by decide)) (by decide) (by decide)) (by decide) (by decide))
    (by decide) (by decide)) (by decide) (by decide)

theorem montanasprotocol.decodeCommit_error_iff (b : List Byte) :
    (∃ e, decodeCommit b = .error e) ↔ b.length ≠ 256 := by
  unfold decodeCommit
  split <;> simp_all

theorem montanasprotocol.decodeCommit_setCommit (L : Lib) (cm : Commit) :
    ∃ e, decodeCommit (setCommit L cm).2 = .error e := by
  rw [decodeCommit_error_iff, setCommit_length]; decide

theorem montanasprotocol.verifyHeader_setCommit (L : Lib) (ss vs : List Byte) (cm : Commit) :
    verifyHeader L ss (setCommit L cm).2 vs = some false := by
  obtain ⟨e, he⟩ := decodeCommit_setCommit L cm
  unfold verifyHeader
  cases decodeState ss with
  | error _ => rfl
  | ok s => simp only [he]

theorem montanasprotocol.verifyCommit_eq_true_iff (L : Lib) (b : List Byte) (commit : Hash)
    (ss : List Byte) :
    verifyCommit L b commit ss = true ↔
      ∃ cm s, decodeCommit b = .ok cm ∧ decodeState ss = .ok s ∧
        (setCommit L cm).1 = commit ∧ L.sha256 (setCommit L cm).2 = L.sha256 b ∧
        ((setCommit L cm).1 = s.NewCommit ∨ s.CurrentValidator = cm.Validator ∨
          s.Height = cm.Height) := by
  unfold verifyCommit
  cases hc : decodeCommit b with
  | error e => simp
  | ok cm =>
    cases hs : decodeState ss with
    | error e => simp
    | ok s =>
      simp only [Except.ok.injEq, exists_and_left, exists_eq_left']
      by_cases h1 : (setCommit L cm).1 = commit
      · by_cases h2 : L.sha256 (setCommit L cm).2 = L.sha256 b
        · simp [h1, h2]

        · have : ¬ (L.sha256 (setCommit L cm).2).val = (L.sha256 b).val :=
            fun h => h2 (Subtype.ext h)
          simp [h1, h2, this]
      · simp [h1]

/-- The fuel of `calculateTreeHeight.loop` is enough: once `temp ≤ fuel + 1`,
more passes do not change the result, so the loop has left by its own test. -/
theorem montanasprotocol.calculateTreeHeight.loop_fuel_stable (fuel : Nat) :
    ∀ temp height k : Nat, temp ≤ fuel + 1 →
      calculateTreeHeight.loop (fuel + k) temp height =
        calculateTreeHeight.loop fuel temp height := by
  induction fuel with
  | zero =>
    intro temp height k h
    cases k with
    | zero => rfl
    | succ k =>
      have h1 : ¬ temp > 1 := by omega
      simp only [Nat.zero_add, calculateTreeHeight.loop, h1, if_false]
  | succ fuel ih =>
    intro temp height k h
    rw [show fuel + 1 + k = (fuel + k) + 1 by omega]
    simp only [calculateTreeHeight.loop]
    split
    · exact ih ((temp + 1) / 2) (height + 1) k (by omega)
    · rfl

theorem montanasprotocol.calculateTreeHeight.loop_lt (fuel : Nat) :
    ∀ temp height : Nat, 1 ≤ temp → calculateTreeHeight.loop fuel temp height < height + temp := by
  induction fuel with
  | zero => intro temp height h; simp only [calculateTreeHeight.loop]; omega
  | succ fuel ih =>
    intro temp height h
    simp only [calculateTreeHeight.loop]
    split
    · have := ih ((temp + 1) / 2) (height + 1) (by omega)
      omega
    · omega

theorem montanasprotocol.calculateTreeHeight_lt (n : Nat) (h : 1 ≤ n) :
    calculateTreeHeight n < n := by
  have := calculateTreeHeight.loop_lt n n 0 h
  simpa [calculateTreeHeight] using this

theorem montanasprotocol.getMerkleTree.inner_inv (L : Lib) (coinbase : Address)
    (validators : List Address) (treeHeight : Nat) (hlt : treeHeight < validators.length)
    (cnt : Nat) : ∀ st, TreeInv treeHeight st →
      ∃ st1, getMerkleTree.inner L coinbase validators cnt st = some st1 ∧
        TreeInv treeHeight st1 := by
  induction cnt with
  | zero => intro st h; exact ⟨st, rfl, h⟩
  | succ cnt ih =>
    intro st h
    obtain ⟨k, hk, hci, hlen, hvi⟩ := h
    unfold getMerkleTree.inner
    by_cases h0 : st.currentIndex = 0
    · simp only [h0, if_true]
      exact ⟨st, rfl, k, hk, hci, hlen, hvi⟩
    · simp only [h0, if_false]
      cases k with
      | zero => simp at hci; exact absurd hci h0
      | succ j =>
        have hpow : 2 ^ (j + 1) = 2 * 2 ^ j := by rw [pow_succ]; omega
        have hpos : 0 < 2 ^ j := Nat.pow_pos (by decide)
        have hle : 2 ^ (j + 1) ≤ 2 ^ treeHeight := Nat.pow_le_pow_right (by decide) hk
        have hv : st.validatorIndex < validators.length := by omega
        have hodd : ¬ st.currentIndex % 2 = 0 := by omega
        have hs : st.currentIndex - 1 < st.tree.length := by omega
        have hc : st.currentIndex < st.tree.length := by omega
        simp only [List.getElem?_eq_getElem hv, hodd, if_false, List.getElem?_eq_getElem hs,
          hc, if_true]
        apply ih
        refine ⟨j, by omega, ?_, ?_, ?_⟩
        · show (st.currentIndex - 1) / 2 = 2 ^ j - 1
          omega
        · show (st.tree.set _ _).length = _
          rw [List.length_set]; exact hlen
        · show st.validatorIndex + 1 + j = treeHeight
          omega

theorem montanasprotocol.getMerkleTree.outer_inv (L : Lib) (coinbase : Address)
    (validators : List Address) (treeHeight : Nat) (hlt : treeHeight < validators.length)
    (r : Nat) : ∀ level st, TreeInv treeHeight st →
      ∃ st1, getMerkleTree.outer L coinbase validators r level st = some st1 ∧
        TreeInv treeHeight st1 := by
  induction r with
  | zero => intro level st h; exact ⟨st, rfl, h⟩
  | succ r ih =>
    intro level st h
    obtain ⟨st1, h1, hinv1⟩ := inner_inv L coinbase validators treeHeight hlt (1 <<< level) st h
    simp only [getMerkleTree.outer, h1]
    exact ih (level + 1) st1 hinv1

theorem montanasprotocol.getMerkleTree_isSome (L : Lib) (coinbase : Address) (merkleRoot : Hash)
    (validators : List Address) (hne : validators ≠ []) :
    ∃ tree, getMerkleTree L coinbase merkleRoot validators = some tree := by
  have hlen : 1 ≤ validators.length := by
    cases validators with
    | nil => exact absurd rfl hne
    | cons a t => simp
  have hlt := calculateTreeHeight_lt validators.length hlen
  have hpos : 0 < 2 ^ calculateTreeHeight validators.length := Nat.pow_pos (by decide)
  unfold getMerkleTree
  have h0 : ¬ validators.length = 0 := by omega
  simp only [h0, if_false]
  obtain ⟨st1, h1, _⟩ := getMerkleTree.outer_inv L coinbase validators _ hlt
    (calculateTreeHeight validators.length) 0
    { tree := (List.replicate ((1 <<< calculateTreeHeight validators.length) - 1 + 1)
        (Bytes.zero 32)).set 0 merkleRoot
      currentIndex := (1 <<< calculateTreeHeight validators.length) - 1
      validatorIndex := 0 }
    ⟨calculateTreeHeight validators.length, le_refl _, by simp [Nat.one_shiftLeft],
      by simp [Nat.one_shiftLeft]; omega, by simp⟩
  exact ⟨st1.tree, by rw [h1]; rfl⟩

theorem montanasprotocol.decodeCommit_ok (b : List Byte) (hb : b.length = 256) :
    decodeCommit b = .ok
      { Height := BigEndian.Uint64 (slice b 0 8)
        Index := BigEndian.Uint64 (slice b 8 16)
        BlockHash := (Bytes.zero 32).copyFrom (slice b 16 48)
        Signature := (Bytes.zero 32).copyFrom (slice b 48 80)
        Validator := (Bytes.zero 20).copyFrom (slice b 80 100) } := by
  simp [decodeCommit, hb]

theorem montanasprotocol.decodeAddressArray_length (a : List Byte) :
    (decodeAddressArray a).length = a.length / 32 := by
  simp [decodeAddressArray]

theorem montanasprotocol.decodeAddressArray_ne_nil (a : List Byte) (h : 32 ≤ a.length) :
    decodeAddressArray a ≠ [] := by
  intro hnil
  have hl := decodeAddressArray_length a
  rw [hnil] at hl
  simp only [List.length_nil] at hl
  omega

theorem montanasprotocol.verifyHeader.indexLoop_absent (coinbase : Address) (v : List Address) :
    ∀ i index, coinbase ∉ v → verifyHeader.indexLoop coinbase v i index = index := by
  induction v with
  | nil => intro i index _; rfl
  | cons addr rest ih =>
    intro i index h
    have h1 : ¬ addr = coinbase := fun e => h (by simp [e])
    have h2 : coinbase ∉ rest := fun e => h (by simp [e])
    simp only [verifyHeader.indexLoop, h1, if_false]
    exact ih (i + 1) index h2

/-- What `setCommit` returns, for every commit: a 160-byte buffer holding the
height, the index, the block hash, the signature, the last eight bytes of the
validator and 72 zero bytes, with the `sha256` digest of that buffer. -/
theorem montanasprotocol.setCommit_buffer (L : Lib) (cm : Commit) :
    (setCommit L cm).2 =
      BigEndian.bytes64 cm.Height ++ BigEndian.bytes64 cm.Index ++ cm.BlockHash.val ++
        cm.Signature.val ++ cm.Validator.val.drop 12 ++ List.replicate 72 0 ∧
    (setCommit L cm).1 = L.sha256 (setCommit L cm).2 := by
  refine ⟨?_, rfl⟩
  have hb := cm.BlockHash.property
  have hs := cm.Signature.property
  have hv := cm.Validator.property
  have hv8 : (cm.Validator.val.drop 12).length = 20 - 12 := by rw [List.length_drop, hv]
  have h8 : ∀ v, (BigEndian.bytes64 v).length = 8 - 0 := fun _ => rfl
  have s1 := copyAt_zeros_add [] (BigEndian.bytes64 cm.Height) 8 152 0 8 0 rfl rfl (h8 _)
    (by decide)
  have s2 := copyAt_zeros_add ([] ++ BigEndian.bytes64 cm.Height) (BigEndian.bytes64 cm.Index)
    8 144 8 16 0 (by simp [BigEndian.bytes64]) rfl (h8 _) (by decide)
  have s3 := copyAt_zeros_add ([] ++ BigEndian.bytes64 cm.Height ++ BigEndian.bytes64 cm.Index)
    cm.BlockHash.val 32 112 16 48 0 (by simp [BigEndian.bytes64]) rfl (by rw [hb]) (by decide)
  have s4 := copyAt_zeros_add
    ([] ++ BigEndian.bytes64 cm.Height ++ BigEndian.bytes64 cm.Index ++ cm.BlockHash.val)
    cm.Signature.val 32 80 48 80 0 (by simp [hb, BigEndian.bytes64]) rfl (by rw [hs])
    (by decide)
  have s5 := copyAt_zeros_add
    ([] ++ BigEndian.bytes64 cm.Height ++ BigEndian.bytes64 cm.Index ++ cm.BlockHash.val ++
      cm.Signature.val)
    (cm.Validator.val.drop 12) 20 60 80 100 12 (by simp [hb, hs, BigEndian.bytes64]) rfl hv8
    (by decide)
  simp only [setCommit, BigEndian.PutUint64At]
  have e0 : (List.replicate (5 * 32) 0 : List Byte) = [] ++ List.replicate (8 + 152) 0 := rfl
  rw [e0, s1]
  rw [show (0 + 152) = 8 + 144 from rfl, s2]
  rw [show (0 + 144) = 32 + 112 from rfl, s3]
  rw [show (0 + 112) = 32 + 80 from rfl, s4]
  rw [show (0 + 80) = 20 + 60 from rfl, s5]
  rfl

theorem montanasprotocol.decodeCommit_ok_length (b : List Byte) (c : Commit)
    (h : decodeCommit b = .ok c) : b.length = 256 := by
  by_contra hne
  have := (decodeCommit_error_iff b).mpr hne
  obtain ⟨e, he⟩ := this
  rw [he] at h
  cases h

/-- Whenever `verifyCommit` returns true, the digest of a 160-byte string equals
the digest of a 256-byte string. -/
theorem montanasprotocol.verifyCommit_collision (L : Lib) (b : List Byte) (commit : Hash)
    (ss : List Byte) (h : verifyCommit L b commit ss = true) :
    ∃ x y : List Byte, x.length = 160 ∧ y.length = 256 ∧ L.sha256 x = L.sha256 y := by
  obtain ⟨cm, s, hc, _, _, h3, _⟩ := (verifyCommit_eq_true_iff L b commit ss).mp h
  exact ⟨(setCommit L cm).2, b, setCommit_length L cm, decodeCommit_ok_length b cm hc, h3⟩

theorem montanasprotocol.verifyHeader_collision (L : Lib) (ss cm validators : List Byte)
    (h : verifyHeader L ss cm validators = some true) :
    ∃ x y : List Byte, x.length = 160 ∧ y.length = 256 ∧ L.sha256 x = L.sha256 y := by
  unfold verifyHeader at h
  cases hs : decodeState ss with
  | error e => rw [hs] at h; cases h
  | ok s =>
    rw [hs] at h
    cases hc : decodeCommit cm with
    | error e => rw [hc] at h; cases h
    | ok c =>
      rw [hc] at h
      simp only at h
      cases ht : getMerkleTree L s.CurrentValidator s.MerkleRoot (decodeAddressArray validators) with
      | none => rw [ht] at h; cases h
      | some tree =>
        rw [ht] at h
        simp only [Option.some.injEq, Bool.and_eq_true] at h
        exact verifyCommit_collision L cm s.NewCommit ss h.1.1.1.2

theorem montanasprotocol.decodeState_ok (b : List Byte) (hb : b.length = 256) :
    decodeState b = .ok
      { RoundId := BigEndian.Uint64 (slice b 0 8)
        Height := BigEndian.Uint64 (slice b 8 16)
        BlockHash := (Bytes.zero 32).copyFrom (slice b 16 48)
        ExtraData := (Bytes.zero 32).copyFrom (slice b 48 80)
        NewCommit := (Bytes.zero 32).copyFrom (slice b 80 112)
        LastCommit := (Bytes.zero 32).copyFrom (slice b 112 144)
        MerkleRoot := (Bytes.zero 32).copyFrom (slice b 144 176)
        CurrentValidator := (Bytes.zero 20).copyFrom (slice b 176 192) } := by
  simp [decodeState, hb]

/-- What `decodeState` reads, for every 256-byte record: the seven leading
fields from the offsets of the record layout, and a validator made of the
sixteen bytes `b[176:192]` followed by four zero bytes. -/
theorem montanasprotocol.decodeState_layout (b : List Byte) (hb : b.length = 256) :
    ∃ s, decodeState b = .ok s ∧
      s.RoundId = specUint64 b 0 ∧ s.Height = specUint64 b 8 ∧
      (∀ i, i < 32 → s.BlockHash.val[i]? = b[16 + i]?) ∧
      (∀ i, i < 32 → s.ExtraData.val[i]? = b[48 + i]?) ∧
      (∀ i, i < 32 → s.NewCommit.val[i]? = b[80 + i]?) ∧
      (∀ i, i < 32 → s.LastCommit.val[i]? = b[112 + i]?) ∧
      (∀ i, i < 32 → s.MerkleRoot.val[i]? = b[144 + i]?) ∧
      s.CurrentValidator.val = slice b 176 192 ++ [0, 0, 0, 0] := by
  refine ⟨_, decodeState_ok b hb, ?_, ?_, ?_, ?_, ?_, ?_, ?_, ?_⟩
  · exact Uint64_slice b 0 (by omega)
  · exact Uint64_slice b 8 (by omega)
  · intro i hi
    exact copyFrom_slice_getElem_opt 32 b 16 48 i (by omega) rfl hi
  · intro i hi
    exact copyFrom_slice_getElem_opt 32 b 48 80 i (by omega) rfl hi
  · intro i hi
    exact copyFrom_slice_getElem_opt 32 b 80 112 i (by omega) rfl hi
  · intro i hi
    exact copyFrom_slice_getElem_opt 32 b 112 144 i (by omega) rfl hi
  · intro i hi
    exact copyFrom_slice_getElem_opt 32 b 144 176 i (by omega) rfl hi
  · have hl : (slice b 176 192).length = 16 := by rw [slice_length b 176 192 (by omega)]
    show ((Bytes.zero 20).copyFrom (slice b 176 192)).val = _
    rw [copyFrom_zero_short 20 _ (by omega), hl]
    rfl

/-- Under the stand-in digests of `constLib`, which let steps 2 and 3 pass, the
guard of step 4 is visible: the commit of `zeroRecord` (height 0) is accepted
against `mismatchState` (height 1, newCommit different from the commit hash),
because the validators are equal. No such input is known for `crypto/sha256`. -/
theorem montanasprotocol.verifyCommit_constLib_accepts_mismatch :
    verifyCommit constLib Sample.zeroRecord (Bytes.zero 32) Sample.mismatchState = true ∧
    ∃ cm s, decodeCommit Sample.zeroRecord = .ok cm ∧
      decodeState Sample.mismatchState = .ok s ∧
      s.CurrentValidator = cm.Validator ∧ s.Height ≠ cm.Height ∧
      (setCommit constLib cm).1 ≠ s.NewCommit := by
  refine ⟨by decide, _, _, rfl, rfl, by decide, by decide, by decide⟩

/-- Under the stand-in digests of `constLib` the index-0 default is visible:
the validator of `nineState` is not in the one-element set holding the zero
address, the commit claims index 0, and `verifyHeader` returns true. No such
input is known for the real digests, under which the proof and commit checks
reject it. -/
theorem montanasprotocol.verifyHeader_absent_validator_index_zero :
    verifyHeader constLib Sample.nineState Sample.zeroRecord (List.replicate 32 0) =
      some true := by
  decide

/-! ## Lemmas on package `montanas` -/

theorem montanas.encodeCommit_length (L : Lib) (cm : montanas.Commit) :
    (cm.encodeCommit L).2.length = 160 := by
  simp only [montanas.Commit.encodeCommit, BigEndian.PutUint64At]
  exact copyAt_length _ _ _ _ (copyAt_length _ _ _ _ (copyAt_length _ _ _ _
    (copyAt_length _ _ _ _ (copyAt_length _ _ _ _ (List.length_replicate _ _)
      (by decide) (by decide)) (by decide) (by decide)) (by decide) (by decide))
    (by decide) (by decide)) (by decide) (by decide)

theorem montanasprotocol.decodeState_error_iff (b : List Byte) :
    (∃ e, decodeState b = .error e) ↔ b.length ≠ 256 := by
  unfold decodeState
  split <;> simp_all

theorem montanas.big_decodeCommit_error_iff (b : List Byte) :
    (∃ e, montanas.decodeCommit b = .error e) ↔ b.length ≠ 256 := by
  unfold montanas.decodeCommit
  split <;> simp_all

theorem montanas.big_decodeState_error_iff (b : List Byte) :
    (∃ e, montanas.decodeState b = .error e) ↔ b.length ≠ 256 := by
  unfold montanas.decodeState
  split <;> simp_all

/-! ## Lemmas on the Merkle tree, the tree height, the validator set and the header -/

theorem montanasprotocol.two_pow_sub_one_ne (a b : Nat) (h : a < b) : 2 ^ a - 1 ≠ 2 ^ b - 1 := by
  have h1 : 2 ^ a < 2 ^ b := Nat.pow_lt_pow_of_lt (by decide) h
  have h2 : 0 < 2 ^ a := Nat.pow_pos (by decide)
  omega

theorem montanasprotocol.getMerkleTree.inner_spine (L : Lib) (coinbase : Address)
    (merkleRoot : Hash) (validators : List Address) (treeHeight : Nat)
    (hlt : treeHeight < validators.length) (cnt : Nat) :
    ∀ k st, SpineInv L coinbase merkleRoot validators treeHeight k st →
      ∃ st1, getMerkleTree.inner L coinbase validators cnt st = some st1 ∧
        SpineInv L coinbase merkleRoot validators treeHeight (k - cnt) st1 := by
  induction cnt with
  | zero => intro k st h; exact ⟨st, rfl, h⟩
  | succ cnt ih =>
    intro k st h
    obtain ⟨hk, hci, hlen, hvi, hroot, hspine, hzero⟩ := h
    unfold getMerkleTree.inner
    cases k with
    | zero =>
      have h0 : st.currentIndex = 0 := by simpa using hci
      simp only [h0, if_true]
      rw [Nat.zero_sub]
      exact ⟨st, rfl, hk, hci, hlen, hvi, hroot, hspine, hzero⟩
    | succ j =>
      have hpow : 2 ^ (j + 1) = 2 * 2 ^ j := by rw [pow_succ]; omega
      have hpos : 0 < 2 ^ j := Nat.pow_pos (by decide)
      have hle : 2 ^ (j + 1) ≤ 2 ^ treeHeight := Nat.pow_le_pow_right (by decide) hk
      have h0 : ¬ st.currentIndex = 0 := by omega
      have hv : st.validatorIndex < validators.length := by omega
      have hodd : ¬ st.currentIndex % 2 = 0 := by omega
      have hs : st.currentIndex - 1 < st.tree.length := by omega
      have hc : st.currentIndex < st.tree.length := by omega
      have hvidx : st.validatorIndex = treeHeight - (j + 1) := by omega
      -- the sibling read by this pass
      have hsib : st.tree[st.currentIndex - 1]? =
          some (if j + 1 = 1 then merkleRoot else Bytes.zero 32) := by
        cases j with
        | zero =>
          have : st.currentIndex - 1 = 0 := by rw [hci]; rfl
          rw [this, hroot]; rfl
        | succ i =>
          have hp2 : 2 ^ (i + 1) = 2 * 2 ^ i := by rw [pow_succ]; omega
          have hp3 : 0 < 2 ^ i := Nat.pow_pos (by decide)
          have hne : ¬ (i + 1 + 1 = 1) := by omega
          rw [if_neg hne]
          apply hzero
          · omega
          · omega
          · intro m hm1 hm2
            have : 2 ^ (i + 1 + 1) < 2 ^ m := Nat.pow_lt_pow_of_lt (by decide) hm1
            omega
      have hval : validators[st.validatorIndex]? =
          some (validators.getD (treeHeight - (j + 1)) (Bytes.zero 20)) := by
        rw [List.getD_eq_getElem?_getD, ← hvidx, List.getElem?_eq_getElem hv]
        rfl
      simp only [h0, if_false, hval, hodd, hsib, hc, if_true]
      have := ih j
        { tree := st.tree.set st.currentIndex
            (spineNode L coinbase merkleRoot validators treeHeight (j + 1))
          currentIndex := (st.currentIndex - 1) / 2
          validatorIndex := st.validatorIndex + 1 }
        ⟨by omega, by show (st.currentIndex - 1) / 2 = 2 ^ j - 1; omega,
          by show (st.tree.set _ _).length = _; rw [List.length_set]; exact hlen,
          by show st.validatorIndex + 1 + j = treeHeight; omega,
          by
            show (st.tree.set _ _)[0]? = _
            rw [List.getElem?_set_ne (by omega)]; exact hroot,
          by
            intro m hm1 hm2
            show (st.tree.set _ _)[2 ^ m - 1]? = _
            by_cases hmj : m = j + 1
            · subst hmj
              rw [hci, List.getElem?_set_self (by omega)]
            · rw [List.getElem?_set_ne (by
                rw [hci]; exact two_pow_sub_one_ne (j + 1) m (by omega))]
              exact hspine m (by omega) hm2,
          by
            intro i hi1 hi2 hne
            show (st.tree.set _ _)[i]? = _
            rw [List.getElem?_set_ne (by
              rw [hci]; exact fun e => hne (j + 1) (by omega) hk e.symm)]
            exact hzero i hi1 hi2 (fun m hm1 hm2 => hne m (by omega) hm2)⟩
      rw [show j + 1 - (cnt + 1) = j - cnt by omega]
      exact this

theorem montanasprotocol.getMerkleTree.outer_spine (L : Lib) (coinbase : Address)
    (merkleRoot : Hash) (validators : List Address) (treeHeight : Nat)
    (hlt : treeHeight < validators.length) (r : Nat) :
    ∀ level k st, SpineInv L coinbase merkleRoot validators treeHeight k st → k ≤ r →
      ∃ st1, getMerkleTree.outer L coinbase validators r level st = some st1 ∧
        SpineInv L coinbase merkleRoot validators treeHeight 0 st1 := by
  induction r with
  | zero =>
    intro level k st h hk
    have : k = 0 := by omega
    subst this
    exact ⟨st, rfl, h⟩
  | succ r ih =>
    intro level k st h hk
    obtain ⟨st1, h1, hinv1⟩ :=
      inner_spine L coinbase merkleRoot validators treeHeight hlt (1 <<< level) k st h
    simp only [getMerkleTree.outer, h1]
    have hpos : 0 < 2 ^ level := Nat.pow_pos (by decide)
    exact ih (level + 1) (k - 1 <<< level) st1 hinv1 (by rw [Nat.one_shiftLeft]; omega)

/-- The tree `getMerkleTree` returns for a non-empty validator list: `2^h` nodes
for `h = calculateTreeHeight n`, the root at position 0, `spineNode j` at
position `2^j - 1` for `1 ≤ j ≤ h`, the zero hash everywhere else. -/
theorem montanasprotocol.getMerkleTree_spine (L : Lib) (coinbase : Address) (merkleRoot : Hash)
    (validators : List Address) (hne : validators ≠ []) :
    ∃ tree, getMerkleTree L coinbase merkleRoot validators = some tree ∧
      tree.length = 2 ^ calculateTreeHeight validators.length ∧
      tree[0]? = some merkleRoot ∧
      (∀ j, 0 < j → j ≤ calculateTreeHeight validators.length →
        tree[2 ^ j - 1]? = some (spineNode L coinbase merkleRoot validators
          (calculateTreeHeight validators.length) j)) ∧
      (∀ i, 0 < i → i < 2 ^ calculateTreeHeight validators.length →
        (∀ j, 0 < j → j ≤ calculateTreeHeight validators.length → i ≠ 2 ^ j - 1) →
        tree[i]? = some (Bytes.zero 32)) := by
  have hlen : 1 ≤ validators.length := by
    cases validators with
    | nil => exact absurd rfl hne
    | cons a t => simp
  have hlt := calculateTreeHeight_lt validators.length hlen
  have h0 : ¬ validators.length = 0 := by omega
  have key : getMerkleTree L coinbase merkleRoot validators =
      (getMerkleTree.outer L coinbase validators (calculateTreeHeight validators.length) 0
        { tree := (List.replicate ((1 <<< calculateTreeHeight validators.length) - 1 + 1)
            (Bytes.zero 32)).set 0 merkleRoot
          currentIndex := (1 <<< calculateTreeHeight validators.length) - 1
          validatorIndex := 0 }).map fun st => st.tree := by
    unfold getMerkleTree
    simp only [h0, if_false]
  rw [key]
  generalize calculateTreeHeight validators.length = h at hlt ⊢
  have hpos : 0 < 2 ^ h := Nat.pow_pos (by decide)
  have hsize : (1 <<< h) - 1 + 1 = 2 ^ h := by rw [Nat.one_shiftLeft]; omega
  obtain ⟨st1, h1, hinv⟩ := getMerkleTree.outer_spine L coinbase merkleRoot validators h hlt
    h 0 h
    { tree := (List.replicate ((1 <<< h) - 1 + 1) (Bytes.zero 32)).set 0 merkleRoot
      currentIndex := (1 <<< h) - 1
      validatorIndex := 0 }
    ⟨le_refl _, by simp [Nat.one_shiftLeft], by simp [hsize], by simp,
      by
        show ((List.replicate _ _).set 0 merkleRoot)[0]? = _
        rw [List.getElem?_set_self (by rw [List.length_replicate]; omega)],
      by intro j hj1 hj2; omega,
      by
        intro i hi1 hi2 _
        show ((List.replicate _ _).set 0 merkleRoot)[i]? = _
        rw [List.getElem?_set_ne (by omega), hsize,
          List.getElem?_replicate_of_lt hi2]⟩
    (le_refl _)
  obtain ⟨_, _, hl, _, hroot, hspine, hzero⟩ := hinv
  exact ⟨st1.tree, by rw [h1]; rfl, hl, hroot, hspine, hzero⟩

theorem montanasprotocol.calculateTreeHeight.loop_spec (fuel : Nat) :
    ∀ temp height : Nat, 1 ≤ temp → temp ≤ fuel + 1 →
      ∃ d, calculateTreeHeight.loop fuel temp height = height + d ∧ temp ≤ 2 ^ d ∧
        ∀ e, temp ≤ 2 ^ e → d ≤ e := by
  induction fuel with
  | zero =>
    intro temp height h1 h2
    refine ⟨0, rfl, by simpa using h2, fun e _ => Nat.zero_le e⟩
  | succ fuel ih =>
    intro temp height h1 h2
    simp only [calculateTreeHeight.loop]
    split
    · rename_i hgt
      obtain ⟨d, hd, hle, hmin⟩ := ih ((temp + 1) / 2) (height + 1) (by omega) (by omega)
      refine ⟨d + 1, by rw [hd]; omega, ?_, ?_⟩
      · rw [pow_succ]; omega
      · intro e he
        cases e with
        | zero => simp at he; omega
        | succ e =>
          rw [pow_succ] at he
          have := hmin e (by omega)
          omega
    · rename_i hgt
      refine ⟨0, rfl, by simp; omega, fun e _ => Nat.zero_le e⟩

theorem montanasprotocol.bytesCompare_neg_iff (a : List Byte) :
    ∀ b : List Byte, bytesCompare a b < 0 ↔ a < b := by
  induction a with
  | nil =>
    intro b
    cases b with
    | nil =>
      simp only [bytesCompare]
      constructor
      · intro h; exact absurd h (by decide)
      · intro h; cases h
    | cons y ys =>
      simp only [bytesCompare]
      exact ⟨fun _ => List.Lex.nil, fun _ => by decide⟩
  | cons x xs ih =>
    intro b
    cases b with
    | nil =>
      simp only [bytesCompare]
      constructor
      · intro h; exact absurd h (by decide)
      · intro h; cases h
    | cons y ys =>
      simp only [bytesCompare]
      by_cases h1 : x.val < y.val
      · simp only [h1, if_true]
        exact ⟨fun _ => List.Lex.rel (Fin.lt_def.mpr h1), fun _ => by decide⟩
      · by_cases h2 : y.val < x.val
        · simp only [h1, h2, if_true, if_false]
          constructor
          · intro h; exact absurd h (by decide)
          · intro h
            cases h with
            | cons h => omega
            | rel h => exact absurd (Fin.lt_def.mp h) h1
        · simp only [h1, h2, if_false]
          have hxy : x = y := Fin.ext (by omega)
          subst hxy
          rw [ih ys]
          constructor
          · intro h
            exact List.Lex.cons h
          · intro h
            cases h with
            | cons h => exact h
            | rel h => exact absurd (Fin.lt_def.mp h) h1

/-- For two byte strings of the same length that differ, exactly one is
below the other in `bytesCompare`. -/
theorem montanasprotocol.bytesCompare_antisymm (a : List Byte) :
    ∀ b : List Byte, a.length = b.length → a ≠ b →
      (bytesCompare a b < 0 ↔ ¬ bytesCompare b a < 0) := by
  induction a with
  | nil =>
    intro b hl hne
    cases b with
    | nil => exact absurd rfl hne
    | cons y ys => simp at hl
  | cons x xs ih =>
    intro b hl hne
    cases b with
    | nil => simp at hl
    | cons y ys =>
      simp only [bytesCompare]
      by_cases h1 : x.val < y.val
      · have h2 : ¬ y.val < x.val := by omega
        simp only [h1, h2, if_true, if_false]
        decide
      · by_cases h2 : y.val < x.val
        · simp only [h1, h2, if_true, if_false]
          decide
        · simp only [h1, h2, if_false]
          have hxy : x = y := Fin.ext (by omega)
          subst hxy
          exact ih ys (by simpa using hl) (fun e => hne (by rw [e]))

theorem montanasprotocol.decodeAddressArray_short (a : List Byte) (h : a.length < 32) :
    decodeAddressArray a = [] := by
  have : a.length / 32 = 0 := by omega
  simp [decodeAddressArray, this]

theorem montanasprotocol.verifyCommit_false_of_length (L : Lib) (b : List Byte) (commit : Hash)
    (ss : List Byte) (h : b.length ≠ 256 ∨ ss.length ≠ 256) :
    verifyCommit L b commit ss = false := by
  cases hv : verifyCommit L b commit ss with
  | false => rfl
  | true =>
    obtain ⟨cm, s, hc, hs, _⟩ := (verifyCommit_eq_true_iff L b commit ss).mp hv
    rcases h with h | h
    · exact absurd (decodeCommit_ok_length b cm hc) h
    · obtain ⟨e, he⟩ := (decodeState_error_iff ss).mpr h
      rw [he] at hs
      cases hs

theorem montanasprotocol.verifyHeader_eq_none_iff (L : Lib) (ss cm validators : List Byte) :
    verifyHeader L ss cm validators = none ↔
      ss.length = 256 ∧ cm.length = 256 ∧ validators.length < 32 := by
  by_cases hs : ss.length = 256
  · by_cases hc : cm.length = 256
    · by_cases hv : 32 ≤ validators.length
      · have hne := decodeAddressArray_ne_nil validators hv
        unfold verifyHeader
        rw [decodeState_ok ss hs, decodeCommit_ok cm hc]
        simp only
        obtain ⟨tree, ht⟩ := getMerkleTree_isSome L _ _ _ hne
        rw [ht]
        constructor
        · intro h; cases h
        · intro h; omega
      · have hnil := decodeAddressArray_short validators (by omega)
        unfold verifyHeader
        rw [decodeState_ok ss hs, decodeCommit_ok cm hc]
        simp only [hnil]
        constructor
        · intro _; exact ⟨hs, hc, by omega⟩
        · intro _; rfl
    · obtain ⟨e, he⟩ := (decodeCommit_error_iff cm).mpr hc
      unfold verifyHeader
      rw [decodeState_ok ss hs, he]
      constructor
      · intro h; cases h
      · intro h; exact absurd h.2.1 hc
  · obtain ⟨e, he⟩ := (decodeState_error_iff ss).mpr hs
    unfold verifyHeader
    rw [he]
    constructor
    · intro h; cases h
    · intro h; exact absurd h.1 hs

theorem montanasprotocol.verifyHeader_false_of_length (L : Lib) (ss cm validators : List Byte)
    (h : ss.length ≠ 256 ∨ cm.length ≠ 256) :
    verifyHeader L ss cm validators = some false := by
  unfold verifyHeader
  by_cases hs : ss.length = 256
  · have hc : cm.length ≠ 256 := by
      rcases h with h | h
      · exact absurd hs h
      · exact h
    obtain ⟨e, he⟩ := (decodeCommit_error_iff cm).mpr hc
    rw [decodeState_ok ss hs, he]
  · obtain ⟨e, he⟩ := (decodeState_error_iff ss).mpr hs
    rw [he]

theorem montanasprotocol.verifyMerkleProof.step_comm (L : Lib) (a b : Hash) :
    verifyMerkleProof.step L a b = verifyMerkleProof.step L b a ∨ a = b := by
  by_cases hab : a = b
  · exact Or.inr hab
  · left
    have hba : ¬ b = a := fun e => hab e.symm
    have hval : a.val ≠ b.val := fun e => hab (Subtype.ext e)
    have hlen : a.val.length = b.val.length := by rw [a.property, b.property]
    have hanti := bytesCompare_antisymm a.val b.val hlen hval
    unfold verifyMerkleProof.step
    simp only [hab, hba, if_false]
    by_cases h1 : bytesCompare a.val b.val < 0
    · have h2 : ¬ bytesCompare b.val a.val < 0 := hanti.mp h1
      simp only [h1, h2, if_true, if_false]
    · have h2 : bytesCompare b.val a.val < 0 := by
        by_contra h2
        exact h1 (hanti.mpr h2)
      simp only [h1, h2, if_true, if_false]

theorem montanasprotocol.verifyMerkleProof_single (L : Lib) (coinbase validator : Address)
    (merkleRoot leaf : Hash) :
    getMerkleTree L coinbase merkleRoot [validator] = some [merkleRoot] ∧
    (verifyMerkleProof L [merkleRoot] merkleRoot leaf = true ↔
      leaf = merkleRoot ∨
      L.sha256 (if leaf.val < merkleRoot.val then leaf.val ++ merkleRoot.val
        else merkleRoot.val ++ leaf.val) = merkleRoot) := by
  refine ⟨rfl, ?_⟩
  unfold verifyMerkleProof
  simp only [List.foldl, decide_eq_true_eq]
  by_cases h : leaf = merkleRoot
  · subst h
    simp [verifyMerkleProof.step]
  · unfold verifyMerkleProof.step
    simp only [h, if_false, bytesCompare_neg_iff, false_or]
    exact ⟨fun e => Subtype.ext e, fun e => by rw [e]⟩

theorem montanasprotocol.lengthLib_no_collision (x y : List Byte) (hx : x.length = 160)
    (hy : y.length = 256) : lengthLib.sha256 x ≠ lengthLib.sha256 y := by
  have h1 : lengthLib.sha256 x = Bytes.zero 32 := by simp [lengthLib, hx]
  have h2 : lengthLib.sha256 y = ⟨List.replicate 32 1, List.length_replicate 32 1⟩ := by
    simp [lengthLib, hy]
  rw [h1, h2]
  decide

theorem montanasprotocol.spineNode_congr (L : Lib) (coinbase : Address) (merkleRoot : Hash)
    (v w : List Address) (h j : Nat) (hj : 0 < j) (hjh : j ≤ h)
    (hvw : w.take h = v.take h) :
    spineNode L coinbase merkleRoot w h j = spineNode L coinbase merkleRoot v h j := by
  have e : w.getD (h - j) (Bytes.zero 20) = v.getD (h - j) (Bytes.zero 20) := by
    rw [List.getD_eq_getElem?_getD, List.getD_eq_getElem?_getD]
    have h1 : (w.take h)[h - j]? = w[h - j]? := List.getElem?_take_of_lt (by omega)
    have h2 : (v.take h)[h - j]? = v[h - j]? := List.getElem?_take_of_lt (by omega)
    rw [← h1, ← h2, hvw]
  unfold spineNode
  rw [e]

theorem Go.copyFrom_zero_long (n : Nat) (src : List Byte) (h : n ≤ src.length) :
    ((Bytes.zero n).copyFrom src).val = src.take n := by
  show copy (Bytes.zero n).val src = _
  have hz : (Bytes.zero n).val.length = n := (Bytes.zero n).property
  unfold copy
  rw [hz, List.drop_eq_nil_of_le (by omega), List.append_nil]

theorem montanasprotocol.decodeAddressArray_getElem (a : List Byte) (i : Nat)
    (hi : i < a.length / 32) :
    (decodeAddressArray a)[i]? =
      some ((Bytes.zero 20).copyFrom (slice a (i * 32) ((i + 1) * 32))) := by
  unfold decodeAddressArray
  simp only [List.getElem?_map, List.getElem?_range hi, Option.map_some']

theorem Go.beNat_foldl (l : List Byte) : ∀ acc : Nat,
    l.foldl (fun acc x => acc * 256 + x.val) acc = acc * 256 ^ l.length + beNat l := by
  induction l with
  | nil => intro acc; simp [beNat]
  | cons x xs ih =>
    intro acc
    simp only [List.foldl, beNat, List.length_cons]
    rw [ih (acc * 256 + x.val), ih (0 * 256 + x.val)]
    simp only [beNat]
    ring

theorem Go.beNat_cons (x : Byte) (l : List Byte) :
    beNat (x :: l) = x.val * 256 ^ l.length + beNat l := by
  show (x :: l).foldl (fun acc x => acc * 256 + x.val) 0 = _
  simp only [List.foldl]
  rw [beNat_foldl l (0 * 256 + x.val)]
  ring

theorem Go.slice_succ (b : List Byte) (off n : Nat) (h : off < b.length) :
    slice b off (off + (n + 1)) = b.getD off 0 :: slice b (off + 1) (off + 1 + n) := by
  unfold slice
  have h1 : List.drop off b = b.getD off 0 :: List.drop (off + 1) b := by
    rw [List.getD_eq_getElem?_getD, List.getElem?_eq_getElem h]
    exact List.drop_eq_getElem_cons h
  rw [h1, show off + (n + 1) - off = n + 1 by omega, show off + 1 + n - (off + 1) = n by omega]
  rfl

theorem Go.specBigEndian_succ (b : List Byte) (off n : Nat) :
    specBigEndian b off (n + 1) =
      (b.getD off 0).val * 256 ^ n + specBigEndian b (off + 1) n := by
  unfold specBigEndian
  rw [List.range_succ_eq_map, List.map_cons, List.sum_cons, List.map_map]
  congr 1
  congr 1
  apply List.map_congr_left
  intro i _
  simp only [Function.comp]
  rw [show off + (i + 1) = off + 1 + i by omega, show n + 1 - 1 - (i + 1) = n - 1 - i by omega]

theorem Go.beNat_slice (b : List Byte) (n : Nat) : ∀ off, off + n ≤ b.length →
    beNat (slice b off (off + n)) = specBigEndian b off n := by
  induction n with
  | zero =>
    intro off _
    simp [slice, beNat, specBigEndian]
  | succ n ih =>
    intro off h
    rw [slice_succ b off n (by omega), beNat_cons, specBigEndian_succ,
      slice_length b _ _ (by omega), ih (off + 1) (by omega),
      show off + 1 + n - (off + 1) = n by omega]

theorem moskovskiy.decodeHeader_ok (input : List Byte) (h : 260 ≤ input.length) :
    moskovskiy.HeaderStorer.decodeHeader { Header := input } = some
      { Height := beNat (slice input 0 32)
        BlockHash := (Bytes.zero 32).copyFrom (slice input 32 64)
        Coinbase := (Bytes.zero 20).copyFrom (slice input 64 96)
        Difficulty := beNat (slice input 96 128)
        ExtraData := (Bytes.zero 32).copyFrom (slice input 128 160)
        GasLimit := beNat (slice input 160 196)
        ParentHash := (Bytes.zero 32).copyFrom (slice input 196 228)
        Timestamp := beNat (slice input 228 260) } := by
  have c (lo hi : Nat) (h1 : lo ≤ hi) (h2 : hi ≤ 260) :
      sliceChecked input lo hi = some (slice input lo hi) := by
    unfold sliceChecked
    rw [if_pos ⟨h1, by omega⟩]
  unfold moskovskiy.HeaderStorer.decodeHeader
  simp only [c 0 32 (by decide) (by decide), c 32 64 (by decide) (by decide),
    c 64 96 (by decide) (by decide), c 96 128 (by decide) (by decide),
    c 128 160 (by decide) (by decide), c 160 196 (by decide) (by decide),
    c 196 228 (by decide) (by decide), c 228 260 (by decide) (by decide)]
  rfl

/-! ## The claims -/

/-- C1. For digests without a collision between a 160-byte and a 256-byte
string: whenever `verifyCommit` returns true, the commit and the state decode
and the re-encoded commit hash equals `state.NewCommit`, `commit.Validator`
equals `state.CurrentValidator` and `commit.Height` equals `state.Height`;
equivalently, whenever one of the three differs the result is false. With
such digests step 3 (the digest of the 160-byte re-encoding against the digest
of the 256-byte input) rejects every input, so no input with a mismatch is
accepted; the guard of step 4 is described, for every digest function, by
`verifyCommit_eq_true_iff`. -/
theorem montanasprotocol.verifyCommit_true_only_if_fields_match (L : Lib) (b : List Byte)
    (commit : Hash) (ss : List Byte)
    (hcf : ∀ x y : List Byte, x.length = 160 → y.length = 256 → L.sha256 x ≠ L.sha256 y) :
    (verifyCommit L b commit ss = true →
      ∃ cm s, decodeCommit b = .ok cm ∧ decodeState ss = .ok s ∧
        (setCommit L cm).1 = s.NewCommit ∧ cm.Validator = s.CurrentValidator ∧
        cm.Height = s.Height) ∧
    (∀ cm s, decodeCommit b = .ok cm → decodeState ss = .ok s →
      ((setCommit L cm).1 ≠ s.NewCommit ∨ cm.Validator ≠ s.CurrentValidator ∨
        cm.Height ≠ s.Height) →
      verifyCommit L b commit ss = false) := by
  have hfalse : verifyCommit L b commit ss = false := by
    cases hv : verifyCommit L b commit ss with
    | false => rfl
    | true =>
      obtain ⟨x, y, hx, hy, hxy⟩ := verifyCommit_collision L b commit ss hv
      exact absurd hxy (hcf x y hx hy)
  refine ⟨fun h => ?_, fun _ _ _ _ _ => hfalse⟩
  rw [hfalse] at h
  cases h

/-- C1, witness: the digests of `lengthLib`, the all-zero commit record (height
0) and `mismatchState` (height 1, newCommit thirty-two bytes `1`). -/
theorem montanasprotocol.verifyCommit_true_only_if_fields_match_witness :
    (∀ x y : List Byte, x.length = 160 → y.length = 256 →
      lengthLib.sha256 x ≠ lengthLib.sha256 y) ∧
    (verifyCommit lengthLib Sample.zeroRecord (Bytes.zero 32) Sample.mismatchState = true →
      ∃ cm s, decodeCommit Sample.zeroRecord = .ok cm ∧
        decodeState Sample.mismatchState = .ok s ∧
        (setCommit lengthLib cm).1 = s.NewCommit ∧ cm.Validator = s.CurrentValidator ∧
        cm.Height = s.Height) ∧
    (∀ cm s, decodeCommit Sample.zeroRecord = .ok cm →
      decodeState Sample.mismatchState = .ok s →
      ((setCommit lengthLib cm).1 ≠ s.NewCommit ∨ cm.Validator ≠ s.CurrentValidator ∨
        cm.Height ≠ s.Height) →
      verifyCommit lengthLib Sample.zeroRecord (Bytes.zero 32) Sample.mismatchState = false) :=
  ⟨lengthLib_no_collision,
    verifyCommit_true_only_if_fields_match lengthLib Sample.zeroRecord (Bytes.zero 32)
      Sample.mismatchState lengthLib_no_collision⟩

/-- C2, counterexample. The state of `zeroRecord` has `LastCommit = NewCommit`,
yet with an empty validator-set blob `verifyHeader` does not return false: it
aborts in `getMerkleTree`, whatever the digests. -/
theorem montanasprotocol.verifyHeader_aborts_repeated_commit :
    (∃ s, decodeState Sample.zeroRecord = .ok s ∧ s.LastCommit = s.NewCommit) ∧
    ∀ L : Lib, verifyHeader L Sample.zeroRecord Sample.zeroRecord [] = none := by
  refine ⟨⟨_, rfl, by decide⟩, fun L => rfl⟩

/-- C2, amended. Round-advance: for every state record, commit record and
validator-set blob of at least 32 bytes, if the decoded state has `LastCommit`
equal to `NewCommit` then `verifyHeader` returns false. -/
theorem montanasprotocol.verifyHeader_false_of_repeated_commit (L : Lib)
    (ss cm validators : List Byte) (s : State) (hs : decodeState ss = .ok s)
    (heq : s.LastCommit = s.NewCommit) (hv : 32 ≤ validators.length) :
    verifyHeader L ss cm validators = some false := by
  unfold verifyHeader
  rw [hs]
  cases decodeCommit cm with
  | error e => rfl
  | ok c =>
    obtain ⟨tree, ht⟩ := getMerkleTree_isSome L s.CurrentValidator s.MerkleRoot
      (decodeAddressArray validators) (decodeAddressArray_ne_nil validators hv)
    simp only [ht, heq]
    simp

/-- C2, witness: the all-zero state and commit with a one-validator set. -/
theorem montanasprotocol.verifyHeader_false_of_repeated_commit_witness :
    decodeState Sample.zeroRecord = .ok Sample.zeroState ∧
    Sample.zeroState.LastCommit = Sample.zeroState.NewCommit ∧
    32 ≤ (List.replicate 32 (0 : Byte)).length ∧
    verifyHeader constLib Sample.zeroRecord Sample.zeroRecord (List.replicate 32 0) =
      some false :=
  ⟨rfl, rfl, by decide,
    verifyHeader_false_of_repeated_commit constLib Sample.zeroRecord Sample.zeroRecord
      (List.replicate 32 0) Sample.zeroState rfl rfl (by decide)⟩

/-- C3, counterexample. The validator of `nineState` does not occur in the
validator set decoded from a 31-byte blob (the empty set), yet `verifyHeader`
does not return false: it aborts in `getMerkleTree`, whatever the digests. -/
theorem montanasprotocol.verifyHeader_aborts_absent_validator :
    (∃ s, decodeState Sample.nineState = .ok s ∧
      s.CurrentValidator ∉ decodeAddressArray (List.replicate 31 0)) ∧
    ∀ L : Lib,
      verifyHeader L Sample.nineState Sample.countingRecord (List.replicate 31 0) = none := by
  refine ⟨⟨_, rfl, by decide⟩, fun L => rfl⟩

/-- C3, amended. Negative membership: for every state record, commit record and
validator-set blob of at least 32 bytes in which the decoded state's
`CurrentValidator` does not occur in the decoded validator set, `verifyHeader`
returns false when the digests have no collision between a 160-byte and a
256-byte string, whatever the commit's index; and, for every digest function,
when the commit record does not decode to a commit of index 0. -/
theorem montanasprotocol.verifyHeader_rejects_absent_validator (L : Lib)
    (ss cm validators : List Byte) (s : State) (hs : decodeState ss = .ok s)
    (hv : 32 ≤ validators.length)
    (habs : s.CurrentValidator ∉ decodeAddressArray validators) :
    ((∀ x y : List Byte, x.length = 160 → y.length = 256 → L.sha256 x ≠ L.sha256 y) →
      verifyHeader L ss cm validators = some false) ∧
    ((∀ c, decodeCommit cm = .ok c → c.Index ≠ 0) →
      verifyHeader L ss cm validators = some false) := by
  constructor
  · intro hcf
    cases hr : verifyHeader L ss cm validators with
    | none =>
      have := (verifyHeader_eq_none_iff L ss cm validators).mp hr
      omega
    | some r =>
      cases r with
      | false => rfl
      | true =>
        obtain ⟨x, y, hx, hy, hxy⟩ := verifyHeader_collision L ss cm validators hr
        exact absurd hxy (hcf x y hx hy)
  · intro hidx
    unfold verifyHeader
    rw [hs]
    cases hc : decodeCommit cm with
    | error e => rfl
    | ok c =>
      obtain ⟨tree, ht⟩ := getMerkleTree_isSome L s.CurrentValidator s.MerkleRoot
        (decodeAddressArray validators) (decodeAddressArray_ne_nil validators hv)
      have h0 : ¬ c.Index = 0 := hidx c hc
      simp only [ht, verifyHeader.indexLoop_absent _ _ 0 0 habs, h0]
      simp

/-- C3, witness: the digests of `lengthLib`, the validator of `nineState`
against the set holding the zero address, and the all-zero commit record,
whose index is 0. -/
theorem montanasprotocol.verifyHeader_rejects_absent_validator_witness :
    (∃ s, decodeState Sample.nineState = .ok s ∧
      s.CurrentValidator ∉ decodeAddressArray (List.replicate 32 0)) ∧
    (∃ c, decodeCommit Sample.zeroRecord = .ok c ∧ c.Index = 0) ∧
    32 ≤ (List.replicate 32 (0 : Byte)).length ∧
    verifyHeader lengthLib Sample.nineState Sample.zeroRecord (List.replicate 32 0) =
      some false :=
  ⟨⟨_, rfl, by decide⟩, ⟨_, rfl, by decide⟩, by decide,
    (verifyHeader_rejects_absent_validator lengthLib Sample.nineState Sample.zeroRecord
      (List.replicate 32 0) _ (by rfl) (by decide) (by decide)).1 lengthLib_no_collision⟩

/-- C4 (the code departs from the claim). The claim: on the encodings of the
acceptance scenario (validators `[A, B, C, D]`, commit of index 2, validator
`C`, height 7) `verifyHeader` returns true. The buffer `setCommit` returns for
the commit has 160 bytes and `decodeCommit` rejects it, so `verifyHeader`
returns false for every state record and all digests; and a commit record of
any other content is accepted only if the digest of a 160-byte string equals
the digest of a 256-byte string. -/
theorem montanasprotocol.verifyHeader_rejects_scenario :
    ∀ (L : Lib) (ss : List Byte),
      decodeAddressArray Sample.scenarioValidators =
        [Sample.validatorA, Sample.validatorB, Sample.validatorC, Sample.validatorD] ∧
      (setCommit L Sample.scenarioCommit).2.length = 160 ∧
      verifyHeader L ss (setCommit L Sample.scenarioCommit).2 Sample.scenarioValidators =
        some false ∧
      ∀ cm : List Byte, verifyHeader L ss cm Sample.scenarioValidators = some true →
        ∃ x y : List Byte, x.length = 160 ∧ y.length = 256 ∧ L.sha256 x = L.sha256 y := by
  intro L ss
  exact ⟨by decide, setCommit_length L _, verifyHeader_setCommit L ss _ _,
    fun cm h => verifyHeader_collision L ss cm _ h⟩

/-- C5 (the code departs from the claim). The claim: decoding the buffer of the
commit encoder gives back the commit. For every commit the encoder of either
package returns a 160-byte buffer, which `decodeCommit` of the same package
rejects with its length error. -/
theorem montanasprotocol.decodeCommit_rejects_encoding :
    ∀ (L : Lib),
      (∀ c : Commit, decodeCommit (setCommit L c).2 =
        .error "Los datos de entrada deben tener una longitud de 256 bytes") ∧
      (∀ c : montanas.Commit, montanas.decodeCommit (c.encodeCommit L).2 =
        .error "input data must be 256 bytes") := by
  intro L
  constructor
  · intro c
    simp [decodeCommit, setCommit_length]
  · intro c
    simp [montanas.decodeCommit, montanas.encodeCommit_length]

/-- C6 (the code departs from the claim). The claim: `decodeState` of
`encodeState s` gives back `s`. For `bigState` (roundId 1, height 2, validator
bytes 1 to 20) the decoded state has roundId `2^248 + 2^185`, height 0 and a
validator whose last four bytes are zero. -/
theorem montanas.decodeState_encodeState_differs :
    ∃ s, montanas.decodeState (montanas.State.encodeState Sample.bigState) = .ok s ∧
      s.RoundId = 2 ^ 248 + 2 ^ 185 ∧ s.Height = 0 ∧
      s.CurrentValidator.val = (List.range 16).map (fun i => toByte (i + 1)) ++ [0, 0, 0, 0] ∧
      s ≠ Sample.bigState := by
  refine ⟨_, rfl, by decide, by decide, by decide, by decide⟩

/-- C7. Length check: each of the four decoders (`decodeCommit` and
`decodeState` of both packages) returns an error if and only if the input does
not have exactly 256 bytes. -/
theorem montanasprotocol.decode_error_iff_length (b : List Byte) :
    ((∃ e, decodeCommit b = .error e) ↔ b.length ≠ 256) ∧
    ((∃ e, decodeState b = .error e) ↔ b.length ≠ 256) ∧
    ((∃ e, montanas.decodeCommit b = .error e) ↔ b.length ≠ 256) ∧
    ((∃ e, montanas.decodeState b = .error e) ↔ b.length ≠ 256) :=
  ⟨decodeCommit_error_iff b, decodeState_error_iff b, montanas.big_decodeCommit_error_iff b,
    montanas.big_decodeState_error_iff b⟩

/-- C8 (the code departs from the claim). The claim: `currentValidator` is the
full 20 bytes `b[176:196]`. For `tailState`, whose only non-zero byte is at
offset 192, the decoded validator is all zero while `b[176:196]` is not: the
code copies `b[176:192]` only. -/
theorem montanasprotocol.decodeState_drops_validator_tail :
    ∃ s, decodeState Sample.tailState = .ok s ∧
      s.CurrentValidator = Bytes.zero 20 ∧
      slice Sample.tailState 176 196 = List.replicate 16 0 ++ [1, 0, 0, 0] ∧
      s.CurrentValidator.val ≠ slice Sample.tailState 176 196 := by
  refine ⟨_, rfl, by decide, by decide, by decide⟩

/-- C9 (the code departs from the claim). The claim: the buffer of `setCommit`
holds the complete 20-byte validator at bytes 80 to 100. For the commit
`Sample.commit` (validator bytes 1 to 20) bytes 80 to 88 hold the validator's
last eight bytes 13 to 20 and bytes 88 to 100 are zero. -/
theorem montanasprotocol.setCommit_validator_truncated :
    ∀ L : Lib, (setCommit L Sample.commit).2 =
      [0, 0, 0, 0, 0, 0, 0, 1, 0, 0, 0, 0, 0, 0, 0, 2] ++ List.replicate 64 0 ++
        [13, 14, 15, 16, 17, 18, 19, 20] ++ List.replicate 72 0 ∧
      slice (setCommit L Sample.commit).2 80 100 ≠ Sample.commit.Validator.val := by
  intro L
  have h : (setCommit L Sample.commit).2 =
      [0, 0, 0, 0, 0, 0, 0, 1, 0, 0, 0, 0, 0, 0, 0, 2] ++ List.replicate 64 0 ++
        [13, 14, 15, 16, 17, 18, 19, 20] ++ List.replicate 72 0 := rfl
  refine ⟨h, ?_⟩
  rw [h]
  decide

/-- C10. Commit record layout on decode: for every 256-byte input `b`,
`decodeCommit b` succeeds with height the big-endian value of `b[0:8]`, index
that of `b[8:16]`, blockHash `b[16:48]`, signature `b[48:80]` and validator
`b[80:100]`; any 256-byte input that agrees with `b` on its first 100 bytes
decodes to the same commit. -/
theorem montanasprotocol.decodeCommit_layout (b : List Byte) (hb : b.length = 256) :
    ∃ c, decodeCommit b = .ok c ∧
      c.Height = specUint64 b 0 ∧ c.Index = specUint64 b 8 ∧
      (∀ i, i < 32 → c.BlockHash.val[i]? = b[16 + i]?) ∧
      (∀ i, i < 32 → c.Signature.val[i]? = b[48 + i]?) ∧
      (∀ i, i < 20 → c.Validator.val[i]? = b[80 + i]?) ∧
      ∀ d : List Byte, d.length = 256 → (∀ i, i < 100 → d[i]? = b[i]?) →
        decodeCommit d = .ok c := by
  refine ⟨_, decodeCommit_ok b hb, ?_, ?_, ?_, ?_, ?_, ?_⟩
  · exact Uint64_slice b 0 (by omega)
  · exact Uint64_slice b 8 (by omega)
  · intro i hi
    exact copyFrom_slice_getElem_opt 32 b 16 48 i (by omega) rfl hi
  · intro i hi
    exact copyFrom_slice_getElem_opt 32 b 48 80 i (by omega) rfl hi
  · intro i hi
    exact copyFrom_slice_getElem_opt 20 b 80 100 i (by omega) rfl hi
  · intro d hd h
    rw [decodeCommit_ok d hd]
    rw [slice_congr b d 0 8 (fun i hi => h i (by omega)),
      slice_congr b d 8 16 (fun i hi => h i (by omega)),
      slice_congr b d 16 48 (fun i hi => h i (by omega)),
      slice_congr b d 48 80 (fun i hi => h i (by omega)),
      slice_congr b d 80 100 (fun i hi => h i (by omega))]

/-- C10, witness: the record whose byte at offset `i` is `i`. -/
theorem montanasprotocol.decodeCommit_layout_witness :
    Sample.countingRecord.length = 256 ∧
    ∃ c, decodeCommit Sample.countingRecord = .ok c ∧
      c.Height = specUint64 Sample.countingRecord 0 ∧
      c.Index = specUint64 Sample.countingRecord 8 ∧
      (∀ i, i < 32 → c.BlockHash.val[i]? = Sample.countingRecord[16 + i]?) ∧
      (∀ i, i < 32 → c.Signature.val[i]? = Sample.countingRecord[48 + i]?) ∧
      (∀ i, i < 20 → c.Validator.val[i]? = Sample.countingRecord[80 + i]?) ∧
      ∀ d : List Byte, d.length = 256 → (∀ i, i < 100 → d[i]? = Sample.countingRecord[i]?) →
        decodeCommit d = .ok c :=
  ⟨by decide, decodeCommit_layout Sample.countingRecord (by decide)⟩

/-! ## The claims, continued -/

/-- C11, counterexample. Both records have 256 bytes and the validator-set blob
has 31 bytes (an empty validator set): `verifyHeader` returns no boolean, it
aborts in `getMerkleTree`, whatever the digests. -/
theorem montanasprotocol.verifyHeader_aborts_on_short_blob :
    Sample.countingRecord.length = 256 ∧
    ∀ L : Lib,
      verifyHeader L Sample.countingRecord Sample.countingRecord (List.replicate 31 7) = none := by
  refine ⟨by decide, fun L => rfl⟩

/-- C11, amended. For every triple of byte sequences `verifyHeader` returns a
boolean, except exactly when both records have 256 bytes and the validator-set
blob is shorter than 32 bytes, where it aborts. On a decode failure
`verifyHeader` and `verifyCommit` return false. -/
theorem montanasprotocol.verifyHeader_aborts_iff (L : Lib) (ss cm validators : List Byte) :
    (verifyHeader L ss cm validators = none ↔
      ss.length = 256 ∧ cm.length = 256 ∧ validators.length < 32) ∧
    ((ss.length ≠ 256 ∨ cm.length ≠ 256) → verifyHeader L ss cm validators = some false) ∧
    (∀ commit : Hash, (cm.length ≠ 256 ∨ ss.length ≠ 256) →
      verifyCommit L cm commit ss = false) :=
  ⟨verifyHeader_eq_none_iff L ss cm validators,
    verifyHeader_false_of_length L ss cm validators,
    fun commit h => verifyCommit_false_of_length L cm commit ss h⟩

/-- C12. Tree height: for every `n ≥ 1` the loop of `calculateTreeHeight n`
ends (more passes than `n` change nothing) and returns the least `h` with
`n ≤ 2^h`. -/
theorem montanasprotocol.calculateTreeHeight_least (n : Nat) (hn : 1 ≤ n) :
    (∀ k, calculateTreeHeight.loop (n + k) n 0 = calculateTreeHeight n) ∧
    n ≤ 2 ^ calculateTreeHeight n ∧
    ∀ e, n ≤ 2 ^ e → calculateTreeHeight n ≤ e := by
  obtain ⟨d, hd, hle, hmin⟩ := calculateTreeHeight.loop_spec n n 0 hn (by omega)
  have hd2 : calculateTreeHeight n = d := by rw [calculateTreeHeight, hd]; omega
  refine ⟨fun k => calculateTreeHeight.loop_fuel_stable n n 0 k (by omega), ?_, ?_⟩
  · rw [hd2]; exact hle
  · rw [hd2]; exact hmin

/-- C12, witness: `n = 5`, with the values for `n = 1, ..., 5`. -/
theorem montanasprotocol.calculateTreeHeight_least_witness :
    1 ≤ 5 ∧
    ((∀ k, calculateTreeHeight.loop (5 + k) 5 0 = calculateTreeHeight 5) ∧
      5 ≤ 2 ^ calculateTreeHeight 5 ∧ ∀ e, 5 ≤ 2 ^ e → calculateTreeHeight 5 ≤ e) ∧
    calculateTreeHeight 1 = 0 ∧ calculateTreeHeight 2 = 1 ∧ calculateTreeHeight 3 = 2 ∧
    calculateTreeHeight 4 = 2 ∧ calculateTreeHeight 5 = 3 :=
  ⟨by decide, calculateTreeHeight_least 5 (by decide), by decide, by decide, by decide,
    by decide, by decide⟩

/-- C13, counterexample. For the count 0 `calculateTreeHeight` returns a
height, the height 0, and no error. -/
theorem montanasprotocol.calculateTreeHeight_zero_returns :
    calculateTreeHeight 0 = 0 := by
  decide

/-- C13, amended. For the count 0 `calculateTreeHeight` returns the height 0,
for any number of passes allowed; the empty validator list is rejected by
`getMerkleTree`, which aborts on it. -/
theorem montanasprotocol.calculateTreeHeight_zero :
    calculateTreeHeight 0 = 0 ∧
    (∀ fuel, calculateTreeHeight.loop fuel 0 0 = 0) ∧
    (∀ (L : Lib) (coinbase : Address) (merkleRoot : Hash),
      getMerkleTree L coinbase merkleRoot [] = none) := by
  refine ⟨by decide, fun fuel => ?_, fun L coinbase merkleRoot => rfl⟩
  cases fuel with
  | zero => rfl
  | succ fuel => simp [calculateTreeHeight.loop]

/-- C14. Tree shape: for every coinbase, root and non-empty validator list,
`getMerkleTree` completes (no index leaves its bounds) and returns `2^h` nodes,
`h = calculateTreeHeight n`, with the caller's root at position 0. -/
theorem montanasprotocol.getMerkleTree_shape (L : Lib) (coinbase : Address) (merkleRoot : Hash)
    (validators : List Address) (hne : validators ≠ []) :
    ∃ tree, getMerkleTree L coinbase merkleRoot validators = some tree ∧
      tree.length = 2 ^ calculateTreeHeight validators.length ∧
      tree[0]? = some merkleRoot := by
  obtain ⟨tree, h1, h2, h3, _⟩ := getMerkleTree_spine L coinbase merkleRoot validators hne
  exact ⟨tree, h1, h2, h3⟩

/-- C14, witness: the four validators of the acceptance scenario. -/
theorem montanasprotocol.getMerkleTree_shape_witness :
    Sample.fourValidators ≠ [] ∧
    ∃ tree, getMerkleTree tagLib Sample.validatorC (Bytes.zero 32) Sample.fourValidators =
        some tree ∧
      tree.length = 2 ^ calculateTreeHeight Sample.fourValidators.length ∧
      tree[0]? = some (Bytes.zero 32) :=
  ⟨by decide, getMerkleTree_shape tagLib Sample.validatorC (Bytes.zero 32) _ (by decide)⟩

/-- C15 (the code departs from the claim). The claim: `verifyMerkleProof` on
the tree of `getMerkleTree` accepts the leaf of every validator of the set.
With the digests of `tagLib`, the zero root and the validators `[A, B, C, D]`
under coinbase `C`, the leaves of `C` and of `A` are both rejected:
`verifyMerkleProof` folds the running hash over every node of the tree, the
root slot included, and compares the result with the root. -/
theorem montanasprotocol.verifyMerkleProof_rejects_own_leaf :
    ∃ tree,
      getMerkleTree tagLib Sample.validatorC (Bytes.zero 32) Sample.fourValidators =
        some tree ∧
      verifyMerkleProof tagLib tree (Bytes.zero 32)
        (tagLib.sha3 (Sample.validatorC.val ++ Sample.validatorC.val)) = false ∧
      verifyMerkleProof tagLib tree (Bytes.zero 32)
        (tagLib.sha3 (Sample.validatorC.val ++ Sample.validatorA.val)) = false := by
  refine ⟨_, rfl, by decide, by decide⟩

/-- C16. Order-independent combine: for all 32-byte `a`, `b` and root `r`,
`verifyMerkleProof [b] r a = verifyMerkleProof [a] r b`; for `a ≠ b` the step
hashes the smaller of the two in byte-lexicographic order followed by the
larger; for equal values the step leaves the running hash as it is. -/
theorem montanasprotocol.verifyMerkleProof_combine_symmetric (L : Lib) (a b r : Hash) :
    verifyMerkleProof L [b] r a = verifyMerkleProof L [a] r b ∧
    (a ≠ b → verifyMerkleProof.step L a b =
      L.sha256 (if a.val < b.val then a.val ++ b.val else b.val ++ a.val)) ∧
    verifyMerkleProof.step L a a = a := by
  refine ⟨?_, ?_, ?_⟩
  · unfold verifyMerkleProof
    simp only [List.foldl]
    rcases verifyMerkleProof.step_comm L a b with h | h
    · simp only [h]
    · subst h
      rfl
  · intro hab
    unfold verifyMerkleProof.step
    simp only [hab, if_false, bytesCompare_neg_iff]
  · unfold verifyMerkleProof.step
    simp

/-- C17. Validator-set decoding: `decodeAddressArray a` returns
`len(a) / 32` identifiers, the `i`-th being the first 20 bytes of the chunk
`a[32i : 32i+32]`, and the bytes after the last full chunk play no part. -/
theorem montanasprotocol.decodeAddressArray_chunks (a : List Byte) :
    (decodeAddressArray a).length = a.length / 32 ∧
    (∀ i, i < a.length / 32 →
      ∃ addr, (decodeAddressArray a)[i]? = some addr ∧
        ∀ j, j < 20 → addr.val[j]? = a[32 * i + j]?) ∧
    decodeAddressArray (a.take (32 * (a.length / 32))) = decodeAddressArray a := by
  refine ⟨decodeAddressArray_length a, ?_, ?_⟩
  · intro i hi
    refine ⟨_, decodeAddressArray_getElem a i hi, ?_⟩
    intro j hj
    have hl : (slice a (i * 32) ((i + 1) * 32)).length = 32 := by
      rw [slice_length a _ _ (by omega)]; omega
    rw [copyFrom_zero_long 20 _ (by omega), List.getElem?_take_of_lt hj, slice_getElem_opt,
      if_pos (by omega)]
    congr 1
    omega
  · have hlen : (a.take (32 * (a.length / 32))).length = 32 * (a.length / 32) := by
      rw [List.length_take]; omega
    unfold decodeAddressArray
    rw [hlen, Nat.mul_div_cancel_left _ (by decide : 0 < 32)]
    apply List.map_congr_left
    intro i hi
    have hi2 : i < a.length / 32 := List.mem_range.mp hi
    rw [slice_congr a (a.take (32 * (a.length / 32))) (i * 32) ((i + 1) * 32)
      (fun k hk => List.getElem?_take_of_lt (by omega))]

/-- C18, counterexample. The digests of `lengthLib` have no collision between
a 160-byte and a 256-byte string, yet `verifyHeader` does not return false on
every input: on two 256-byte records and an empty validator set it aborts. -/
theorem montanasprotocol.verifyHeader_aborts_without_collision :
    (∀ x y : List Byte, x.length = 160 → y.length = 256 →
      lengthLib.sha256 x ≠ lengthLib.sha256 y) ∧
    verifyHeader lengthLib Sample.zeroRecord Sample.zeroRecord [] = none :=
  ⟨lengthLib_no_collision, rfl⟩

/-- C18, amended. A commit record accepted by `decodeCommit` has 256 bytes and
its re-encoding by `setCommit` has 160, so the two differ; `verifyCommit`
returns true only if two distinct strings of 160 and 256 bytes have the same
`sha256`; and when no such pair exists `verifyCommit` returns false on every
input and `verifyHeader` never returns true: it returns false whenever the
validator-set blob has at least 32 bytes. -/
theorem montanasprotocol.verifyCommit_true_needs_collision (L : Lib) (b : List Byte)
    (commit : Hash) (ss : List Byte) :
    (∀ cm, decodeCommit b = .ok cm →
      b.length = 256 ∧ (setCommit L cm).2.length = 160 ∧ (setCommit L cm).2 ≠ b) ∧
    (verifyCommit L b commit ss = true →
      ∃ x y : List Byte, x ≠ y ∧ x.length = 160 ∧ y.length = 256 ∧
        L.sha256 x = L.sha256 y) ∧
    ((∀ x y : List Byte, x.length = 160 → y.length = 256 → L.sha256 x ≠ L.sha256 y) →
      verifyCommit L b commit ss = false ∧
      ∀ cm validators : List Byte,
        verifyHeader L ss cm validators ≠ some true ∧
        (32 ≤ validators.length → verifyHeader L ss cm validators = some false)) := by
  refine ⟨?_, ?_, ?_⟩
  · intro cm hc
    have hb := decodeCommit_ok_length b cm hc
    refine ⟨hb, setCommit_length L cm, ?_⟩
    intro e
    have := setCommit_length L cm
    rw [e, hb] at this
    exact absurd this (by decide)
  · intro h
    obtain ⟨x, y, hx, hy, hxy⟩ := verifyCommit_collision L b commit ss h
    refine ⟨x, y, ?_, hx, hy, hxy⟩
    intro e
    rw [e, hy] at hx
    exact absurd hx (by decide)
  · intro hcf
    constructor
    · cases hv : verifyCommit L b commit ss with
      | false => rfl
      | true =>
        obtain ⟨x, y, hx, hy, hxy⟩ := verifyCommit_collision L b commit ss hv
        exact absurd hxy (hcf x y hx hy)
    · intro cm validators
      have hnt : verifyHeader L ss cm validators ≠ some true := by
        intro h
        obtain ⟨x, y, hx, hy, hxy⟩ := verifyHeader_collision L ss cm validators h
        exact hcf x y hx hy hxy
      refine ⟨hnt, fun hv => ?_⟩
      cases hr : verifyHeader L ss cm validators with
      | none =>
        have := (verifyHeader_eq_none_iff L ss cm validators).mp hr
        omega
      | some r =>
        cases r with
        | false => rfl
        | true => exact absurd hr hnt

/-- C18, witness: the digests of `lengthLib` on the all-zero records. -/
theorem montanasprotocol.verifyCommit_true_needs_collision_witness :
    (∀ x y : List Byte, x.length = 160 → y.length = 256 →
      lengthLib.sha256 x ≠ lengthLib.sha256 y) ∧
    verifyCommit lengthLib Sample.zeroRecord (Bytes.zero 32) Sample.zeroRecord = false ∧
    verifyHeader lengthLib Sample.zeroRecord Sample.zeroRecord (List.replicate 32 0) =
      some false :=
  ⟨lengthLib_no_collision,
    ((verifyCommit_true_needs_collision lengthLib Sample.zeroRecord (Bytes.zero 32)
      Sample.zeroRecord).2.2 lengthLib_no_collision).1,
    (((verifyCommit_true_needs_collision lengthLib Sample.zeroRecord (Bytes.zero 32)
      Sample.zeroRecord).2.2 lengthLib_no_collision).2 Sample.zeroRecord
        (List.replicate 32 0)).2 (by decide)⟩

/-- C19. Single spine: for every non-empty validator list with
`h = calculateTreeHeight n`, the tree of `getMerkleTree` has `2^h` nodes, the
root at position 0, at each position `2^j - 1` (`1 ≤ j ≤ h`) the `sha256` of
the sibling (the root for `j = 1`, the zero hash otherwise) followed by the
`sha3` of coinbase and validator `h - j`, and the zero hash everywhere else;
every state of the walk (`SpineInv`) stands at position 0 or at an odd
position, so the sibling is never the one at `i + 1`; and a list of the same
length with the same first `h` validators gives the same tree. -/
theorem montanasprotocol.getMerkleTree_single_spine (L : Lib) (coinbase : Address)
    (merkleRoot : Hash) (validators : List Address) (hne : validators ≠ []) :
    ∃ tree, getMerkleTree L coinbase merkleRoot validators = some tree ∧
      tree.length = 2 ^ calculateTreeHeight validators.length ∧
      tree[0]? = some merkleRoot ∧
      (∀ j, 0 < j → j ≤ calculateTreeHeight validators.length →
        calculateTreeHeight validators.length - j < validators.length ∧
        tree[2 ^ j - 1]? = some (L.sha256
          ((if j = 1 then merkleRoot else Bytes.zero 32).val ++
            (L.sha3 (coinbase.val ++ (validators.getD
              (calculateTreeHeight validators.length - j) (Bytes.zero 20)).val)).val))) ∧
      (∀ i, 0 < i → i < 2 ^ calculateTreeHeight validators.length →
        (∀ j, 0 < j → j ≤ calculateTreeHeight validators.length → i ≠ 2 ^ j - 1) →
        tree[i]? = some (Bytes.zero 32)) ∧
      (∀ k st, SpineInv L coinbase merkleRoot validators
          (calculateTreeHeight validators.length) k st →
        st.currentIndex ≠ 0 → st.currentIndex % 2 = 1) ∧
      (∀ others : List Address, others.length = validators.length →
        others.take (calculateTreeHeight validators.length) =
          validators.take (calculateTreeHeight validators.length) →
        getMerkleTree L coinbase merkleRoot others = some tree) := by
  obtain ⟨tree, h1, h2, h3, h4, h5⟩ :=
    getMerkleTree_spine L coinbase merkleRoot validators hne
  have hlen : 1 ≤ validators.length := by
    cases validators with
    | nil => exact absurd rfl hne
    | cons a t => simp
  have hlt := calculateTreeHeight_lt validators.length hlen
  refine ⟨tree, h1, h2, h3, ?_, h5, ?_, ?_⟩
  · intro j hj1 hj2
    exact ⟨by omega, h4 j hj1 hj2⟩
  · intro k st hinv h0
    obtain ⟨_, hci, _⟩ := hinv
    cases k with
    | zero => simp at hci; exact absurd hci h0
    | succ j =>
      have hpow : 2 ^ (j + 1) = 2 * 2 ^ j := by rw [pow_succ]; omega
      have hpos : 0 < 2 ^ j := Nat.pow_pos (by decide)
      omega
  · intro others hol htake
    have hone : others ≠ [] := by
      intro e
      rw [e] at hol
      simp at hol
      omega
    obtain ⟨tree2, g1, g2, g3, g4, g5⟩ :=
      getMerkleTree_spine L coinbase merkleRoot others hone
    rw [hol] at g2 g4 g5
    rw [g1]
    congr 1
    apply List.ext_getElem?
    intro i
    by_cases hi : i < 2 ^ calculateTreeHeight validators.length
    · by_cases hi0 : i = 0
      · rw [hi0, g3, h3]
      · by_cases hex : ∃ j, 0 < j ∧ j ≤ calculateTreeHeight validators.length ∧ i = 2 ^ j - 1
        · obtain ⟨j, hj1, hj2, hj3⟩ := hex
          rw [hj3, g4 j hj1 hj2, h4 j hj1 hj2,
            spineNode_congr L coinbase merkleRoot validators others _ j hj1 hj2 htake]
        · have hno : ∀ j, 0 < j → j ≤ calculateTreeHeight validators.length →
              i ≠ 2 ^ j - 1 := fun j hj1 hj2 e => hex ⟨j, hj1, hj2, e⟩
          rw [g5 i (by omega) hi hno, h5 i (by omega) hi hno]
    · rw [List.getElem?_eq_none (by omega), List.getElem?_eq_none (by omega)]

/-- C19, witness: the four validators of the acceptance scenario. -/
theorem montanasprotocol.getMerkleTree_single_spine_witness :
    Sample.fourValidators ≠ [] ∧
    ∃ tree, getMerkleTree tagLib Sample.validatorC (Bytes.zero 32) Sample.fourValidators =
        some tree ∧
      tree.length = 4 ∧
      tree[0]? = some (Bytes.zero 32) ∧
      tree[1]? = some (tagLib.sha256 ((Bytes.zero 32).val ++
        (tagLib.sha3 (Sample.validatorC.val ++ Sample.validatorB.val)).val)) ∧
      tree[2]? = some (Bytes.zero 32) ∧
      tree[3]? = some (tagLib.sha256 ((Bytes.zero 32).val ++
        (tagLib.sha3 (Sample.validatorC.val ++ Sample.validatorA.val)).val)) := by
  obtain ⟨tree, h1, h2, h3, h4, h5, _⟩ :=
    getMerkleTree_single_spine tagLib Sample.validatorC (Bytes.zero 32) Sample.fourValidators
      (by decide)
  have hh : calculateTreeHeight Sample.fourValidators.length = 2 := by decide
  rw [hh] at h2 h4 h5
  refine ⟨by decide, tree, h1, h2, h3, (h4 1 (by decide) (by decide)).2, ?_,
    (h4 2 (by decide) (by decide)).2⟩
  apply h5 2 (by decide) (by decide)
  intro j hj1 hj2
  have : j = 1 ∨ j = 2 := by omega
  rcases this with e | e <;> subst e <;> decide

/-- C20. Header sanity check: for every input of at least 260 bytes
`verifyHeader` returns the decoded header (height the big-endian integer of
bytes 0 to 32, blockHash bytes 32 to 64, coinbase bytes 64 to 84, parentHash
bytes 196 to 228) and an error that is `nil` exactly when coinbase and
blockHash are both non-zero or height is 0 with a zero parentHash, `invalid
genesis block` exactly when the first fails, height is 0 and parentHash is not
zero, and `invalid header` exactly when the first fails and height is not 0. -/
theorem moskovskiy.verifyHeader_table (input : List Byte) (h : 260 ≤ input.length) :
    ∃ header err, moskovskiy.verifyHeader input = some (header, err) ∧
      moskovskiy.HeaderStorer.decodeHeader { Header := input } = some header ∧
      header.Height = specBigEndian input 0 32 ∧
      (∀ i, i < 32 → header.BlockHash.val[i]? = input[32 + i]?) ∧
      (∀ i, i < 20 → header.Coinbase.val[i]? = input[64 + i]?) ∧
      (∀ i, i < 32 → header.ParentHash.val[i]? = input[196 + i]?) ∧
      (err = none ↔
        (header.Coinbase ≠ Bytes.zero 20 ∧ header.BlockHash ≠ Bytes.zero 32) ∨
        (header.Height = 0 ∧ header.ParentHash = Bytes.zero 32)) ∧
      (err = some "invalid genesis block" ↔
        ¬ (header.Coinbase ≠ Bytes.zero 20 ∧ header.BlockHash ≠ Bytes.zero 32) ∧
        header.Height = 0 ∧ header.ParentHash ≠ Bytes.zero 32) ∧
      (err = some "invalid header" ↔
        ¬ (header.Coinbase ≠ Bytes.zero 20 ∧ header.BlockHash ≠ Bytes.zero 32) ∧
        header.Height ≠ 0) := by
  have key : ∃ header : moskovskiy.Header,
      moskovskiy.HeaderStorer.decodeHeader { Header := input } = some header ∧
      header.Height = specBigEndian input 0 32 ∧
      (∀ i, i < 32 → header.BlockHash.val[i]? = input[32 + i]?) ∧
      (∀ i, i < 20 → header.Coinbase.val[i]? = input[64 + i]?) ∧
      (∀ i, i < 32 → header.ParentHash.val[i]? = input[196 + i]?) := by
    refine ⟨_, moskovskiy.decodeHeader_ok input h, ?_, ?_, ?_, ?_⟩
    · exact beNat_slice input 32 0 (by omega)
    · intro i hi
      exact copyFrom_slice_getElem_opt 32 input 32 64 i (by omega) rfl hi
    · intro i hi
      show ((Bytes.zero 20).copyFrom (slice input 64 96)).val[i]? = _
      rw [copyFrom_zero_long 20 _ (by rw [slice_length input _ _ (by omega)]; omega),
        List.getElem?_take_of_lt hi, slice_getElem_opt, if_pos (by omega)]
    · intro i hi
      exact copyFrom_slice_getElem_opt 32 input 196 228 i (by omega) rfl hi
  obtain ⟨header, hdec, hH, hB, hC, hP⟩ := key
  unfold moskovskiy.verifyHeader
  simp only [hdec]
  by_cases h1 : header.Coinbase ≠ Bytes.zero 20 ∧ header.BlockHash ≠ Bytes.zero 32
  · rw [if_pos h1]
    refine ⟨header, none, rfl, rfl, hH, hB, hC, hP, ?_, ?_, ?_⟩
    · exact ⟨fun _ => Or.inl h1, fun _ => rfl⟩
    · exact ⟨fun e => (by cases e), fun e => absurd h1 e.1⟩
    · exact ⟨fun e => (by cases e), fun e => absurd h1 e.1⟩
  · rw [if_neg h1]
    by_cases h2 : header.Height = 0
    · rw [if_pos h2]
      by_cases h3 : header.ParentHash = Bytes.zero 32
      · rw [if_pos h3]
        refine ⟨header, none, rfl, rfl, hH, hB, hC, hP, ?_, ?_, ?_⟩
        · exact ⟨fun _ => Or.inr ⟨h2, h3⟩, fun _ => rfl⟩
        · exact ⟨fun e => (by cases e), fun e => absurd h3 e.2.2⟩
        · exact ⟨fun e => (by cases e), fun e => absurd h2 e.2⟩
      · rw [if_neg h3]
        refine ⟨header, some "invalid genesis block", rfl, rfl, hH, hB, hC, hP, ?_, ?_, ?_⟩
        · constructor
          · intro e; cases e
          · intro e
            rcases e with e | e
            · exact absurd e h1
            · exact absurd e.2 h3
        · exact ⟨fun _ => ⟨h1, h2, h3⟩, fun _ => rfl⟩
        · constructor
          · intro e
            exact absurd e (by decide)
          · intro e; exact absurd h2 e.2
    · rw [if_neg h2]
      refine ⟨header, some "invalid header", rfl, rfl, hH, hB, hC, hP, ?_, ?_, ?_⟩
      · constructor
        · intro e; cases e
        · intro e
          rcases e with e | e
          · exact absurd e h1
          · exact absurd e.1 h2
      · constructor
        · intro e
          exact absurd e (by decide)
        · intro e; exact absurd e.2.1 h2
      · exact ⟨fun _ => ⟨h1, h2⟩, fun _ => rfl⟩

/-- C20, witness: the 260-byte record whose byte at offset `i` is `i mod 256`. -/
theorem moskovskiy.verifyHeader_table_witness :
    260 ≤ Sample.headerRecord.length ∧
    ∃ header err, moskovskiy.verifyHeader Sample.headerRecord = some (header, err) ∧
      moskovskiy.HeaderStorer.decodeHeader { Header := Sample.headerRecord } = some header ∧
      header.Height = specBigEndian Sample.headerRecord 0 32 ∧
      (∀ i, i < 32 → header.BlockHash.val[i]? = Sample.headerRecord[32 + i]?) ∧
      (∀ i, i < 20 → header.Coinbase.val[i]? = Sample.headerRecord[64 + i]?) ∧
      (∀ i, i < 32 → header.ParentHash.val[i]? = Sample.headerRecord[196 + i]?) ∧
      (err = none ↔
        (header.Coinbase ≠ Bytes.zero 20 ∧ header.BlockHash ≠ Bytes.zero 32) ∨
        (header.Height = 0 ∧ header.ParentHash = Bytes.zero 32)) ∧
      (err = some "invalid genesis block" ↔
        ¬ (header.Coinbase ≠ Bytes.zero 20 ∧ header.BlockHash ≠ Bytes.zero 32) ∧
        header.Height = 0 ∧ header.ParentHash ≠ Bytes.zero 32) ∧
      (err = some "invalid header" ↔
        ¬ (header.Coinbase ≠ Bytes.zero 20 ∧ header.BlockHash ≠ Bytes.zero 32) ∧
        header.Height ≠ 0) :=
  ⟨by decide, moskovskiy.verifyHeader_table Sample.headerRecord (by decide)⟩
